import Mathlib

/-!
Verification development for the flojoy decorator layer (`flojoy.py`) and the
Windows job-queue worker (`flojoy/rq_worker.py`).

The Python code is shallowly embedded: Python dicts become association lists
with first-match lookup and replace-or-append assignment, exceptions become
`Except`, and file or network reads (`get_parameter_manifest`,
`CtrlPanel.get_state` input, Redis fetches) become explicit parameters.
Machine reals never enter the claims; wall-clock durations are rationals.
-/

set_option autoImplicit false

namespace Flojoy

/-! Python dict model: association lists with insertion order, first-match
lookup, and assignment that replaces the first matching key in place or
appends a fresh key at the end (CPython dict semantics for the operations
used by this code base). -/

abbrev PyDict (α : Type) := List (String × α)

def pyLookup {α : Type} : PyDict α → String → Option α
  | [], _ => none
  | (k, v) :: rest, key => if k = key then some v else pyLookup rest key

def pyMem {α : Type} (d : PyDict α) (key : String) : Bool :=
  (pyLookup d key).isSome

def pyUpsert {α : Type} : PyDict α → String → α → PyDict α
  | [], key, v => [(key, v)]
  | (k, w) :: rest, key, v =>
    if k = key then (k, v) :: rest else (k, w) :: pyUpsert rest key v

def pyKeys {α : Type} (d : PyDict α) : List String :=
  d.map Prod.fst

/-! Python exceptions raised by the code in `flojoy.py`. -/

inductive PyErr where
  | keyError (key : String)
  | valueError
  | indexError
  | jsonError
  deriving DecidableEq, Repr

/-- Python `str.split(sep)` for a one-character separator. -/
def splitChar (sep : Char) : List Char → List (List Char)
  | [] => [[]]
  | c :: cs =>
    match splitChar sep cs with
    | [] => [[]]
    | h :: t => if c = sep then [] :: h :: t else (c :: h) :: t

/-! `CtrlPanel.get_state` (flojoy.py lines 30-47).

An element of the `elements` list of `fc.json` is modelled by whether the
JSON object has a `source` key (edges do), its `id` string, and its `data`
member: `none` means the element has no `data` key (so `el['data']` raises a
`KeyError`), `some none` means `data` is present without a `ctrls` key, and
`some (some c)` means `data.ctrls = c`. -/

structure FcElement (α : Type) where
  hasSource : Bool
  id : String
  data : Option (Option (PyDict α))
  deriving DecidableEq, Repr

namespace CtrlPanel

/-- The label of an element: the part of its id before the first `-`
(`el['id'].split('-')[0]`). -/
def elemLabel {α : Type} (el : FcElement α) : String :=
  String.mk ((splitChar '-' el.id.data).headD [])

/-- The ctrls contributed by a non-edge element:
`data['ctrls'] if 'ctrls' in data else ` the empty dict. -/
def effCtrls {α : Type} (el : FcElement α) : PyDict α :=
  ((el.data.getD none).getD [])

def getStateAux {α : Type} :
    List (FcElement α) → PyDict (PyDict α) → Except PyErr (PyDict (PyDict α))
  | [], acc => .ok acc
  | el :: rest, acc =>
    if el.hasSource then
      getStateAux rest acc
    else
      match el.data with
      | none => .error (.keyError "data")
      | some dataCtrls =>
        getStateAux rest (pyUpsert acc (elemLabel el) (dataCtrls.getD []))

/-- `CtrlPanel.get_state`, with the parsed `fc.json` `elements` list passed
in explicitly (the file read is abstracted away). -/
def get_state {α : Type} (elems : List (FcElement α)) :
    Except PyErr (PyDict (PyDict α)) :=
  getStateAux elems []

/-- The ctrls of the last non-edge element of `elems` whose label is `l`,
if any: the reference value for what `get_state` binds `l` to, since a
later assignment to `ctrls_dict[label]` overrides an earlier one. -/
def lastCtrl {α : Type} : List (FcElement α) → String → Option (PyDict α)
  | [], _ => none
  | el :: rest, l =>
    match lastCtrl rest l with
    | some c => some c
    | none =>
      if el.hasSource = false ∧ elemLabel el = l then some (effCtrls el)
      else none

end CtrlPanel

/-! `VectorXY` (flojoy.py lines 49-103).

Python runtime values relevant to `_ndarrayify`, which dispatches on
`str(type(value))`: ints, floats, lists, numpy arrays, and anything else.
Float payloads are opaque tokens (no float arithmetic occurs anywhere in
the class); `otherV` carries the type name of a value of any other type. -/

inductive PyVal where
  | intV (n : Int)
  | floatV (fid : Nat)
  | listV (elems : List PyVal)
  | ndarray (elems : List PyVal)
  | otherV (typeName : String)
  deriving Repr

namespace VectorXY

/-- `VectorXY._ndarrayify`: ints and floats are wrapped into one-element
arrays, lists are converted to arrays, arrays pass through, and any other
type raises a `ValueError`. -/
def ndarrayify : PyVal → Except PyErr PyVal
  | .intV n => .ok (.ndarray [.intV n])
  | .floatV f => .ok (.ndarray [.floatV f])
  | .listV l => .ok (.ndarray l)
  | .ndarray a => .ok (.ndarray a)
  | .otherV _ => .error .valueError

/-- The mapping held by a `VectorXY` instance (a `Box` is a dict). -/
abbrev VecState := PyDict PyVal

/-- `VectorXY.__setitem__`: keys other than x and y raise a `KeyError`;
otherwise the value is coerced by `_ndarrayify` and stored. -/
def setitem (s : VecState) (key : String) (value : PyVal) :
    Except PyErr VecState :=
  if key ≠ "x" ∧ key ≠ "y" then .error (.keyError key)
  else
    match ndarrayify value with
    | .error e => .error e
    | .ok v2 => .ok (pyUpsert s key v2)

/-- `VectorXY.__getitem__`: keys other than x and y raise a `KeyError`;
the `_ignore_default` branch of the source is unreachable (that key already
fails the first test) and is therefore absent here. -/
def getitem (s : VecState) (key : String) : Except PyErr PyVal :=
  if key ≠ "x" ∧ key ≠ "y" then .error (.keyError key)
  else
    match pyLookup s key with
    | some v => .ok v
    | none => .error (.keyError key)

/-- `VectorXY.__init__`: each of x and y is taken from the keyword
arguments (coerced by an explicit `_ndarrayify` call, then assigned through
`__setitem__`, which coerces again) or initialised to an empty array. -/
def init (kwargs : PyDict PyVal) : Except PyErr VecState := do
  let s0 : VecState := []
  let s1 ← match pyLookup kwargs "x" with
    | some v => do
        let v2 ← ndarrayify v
        setitem s0 "x" v2
    | none => setitem s0 "x" (.ndarray [])
  let s2 ← match pyLookup kwargs "y" with
    | some v => do
        let v2 ← ndarrayify v
        setitem s1 "y" v2
    | none => setitem s1 "y" (.ndarray [])
  pure s2

/-- Whether a value is a numpy array. -/
def isNd : PyVal → Bool
  | .ndarray _ => true
  | _ => false

/-- The invariant claimed for `VectorXY`: exactly the keys x and y, each
bound to a numpy array. -/
def VecInv (s : VecState) : Prop :=
  pyKeys s = ["x", "y"] ∧ ∀ kv ∈ s, isNd kv.2 = true

end VectorXY

/-! Character-level machinery shared by `js_to_json` and the timeout
message analysis. Strings are worked on as `List Char`. -/

/-- The left brace character, written by code point to keep braces out of
literals. -/
def lbrace : Char := Char.ofNat 123

/-- The right brace character. -/
def rbrace : Char := Char.ofNat 125

/-- The double-quote character. -/
def quoteC : Char := Char.ofNat 34

/-- The apostrophe character. -/
def aposC : Char := Char.ofNat 39

/-- A regex word character (`\w`), ASCII model: letters, digits, underscore. -/
def isWordChar (c : Char) : Bool :=
  c.isAlphanum || c = '_'

/-- The whitespace characters recognised by Python `str.split()` (ASCII). -/
def isSpaceChar (c : Char) : Bool :=
  c = ' ' || c = '\t' || c = '\n' || c = '\r' || c = Char.ofNat 11 || c = Char.ofNat 12

/-- Whether `pat` is a leading segment of `l`. -/
def startsWithL : List Char → List Char → Bool
  | [], _ => true
  | _ :: _, [] => false
  | p :: ps, c :: cs => p = c && startsWithL ps cs

/-- Whether `pat` occurs contiguously anywhere inside `l`. -/
def occursL (pat : List Char) : List Char → Bool
  | [] => startsWithL pat []
  | c :: cs => startsWithL pat (c :: cs) || occursL pat cs

/-- Python `str.replace(pat, repl)`: scan left to right, replacing
non-overlapping occurrences. (Python treats an empty pattern specially;
every pattern used by `js_to_json` is non-empty.) -/
def replaceList (pat repl : List Char) : List Char → List Char
  | [] => []
  | c :: cs =>
    if pat ≠ [] ∧ startsWithL pat (c :: cs) = true then
      repl ++ replaceList pat repl (List.drop (pat.length - 1) cs)
    else
      c :: replaceList pat repl cs
termination_by l => l.length
decreasing_by
  · simp only [List.length_cons, List.length_drop]
    omega
  · simp only [List.length_cons]
    omega

/-- Python `str.rstrip(sep)` for the semicolon: drop trailing semicolons. -/
def rstripSemi (l : List Char) : List Char :=
  (l.reverse.dropWhile (fun c => c = ';')).reverse

/-- Python `re.sub(r"(\w+)", r'"\1"', s)`: wrap every maximal run of word
characters in double quotes. -/
def quoteWords : List Char → List Char
  | [] => []
  | c :: cs =>
    if isWordChar c then
      quoteC :: List.takeWhile isWordChar (c :: cs)
        ++ quoteC :: quoteWords (List.dropWhile isWordChar (c :: cs))
    else
      c :: quoteWords cs
termination_by l => l.length
decreasing_by
  · simp only [List.dropWhile_cons, List.length_cons, *, if_true]
    have := (List.dropWhile_suffix (l := cs) isWordChar).sublist.length_le
    omega
  · simp

/-! A model of `json.loads` on the fragment that the `js_to_json` pipeline
can produce: after the quoting stage every maximal word run is wrapped in
double quotes, so values are strings and objects; no whitespace remains
(all of it was stripped) and no escape sequences can occur (word
characters only). Inputs outside this fragment are parse errors, as the
real `json.loads` also rejects the malformed remainders. Duplicate keys
follow CPython semantics: the last binding wins. -/

inductive Json where
  | str (s : String)
  | obj (members : List (String × Json))
  deriving Repr

/-- Parse a string body after an opening quote, up to the closing quote. -/
def parseStrBody : List Char → Option (List Char × List Char)
  | [] => none
  | c :: cs =>
    if c = quoteC then some ([], cs)
    else
      match parseStrBody cs with
      | some (s, r) => some (c :: s, r)
      | none => none

mutual

def parseValue : Nat → List Char → Option (Json × List Char)
  | 0, _ => none
  | _ + 1, [] => none
  | fuel + 1, c :: cs =>
    if c = quoteC then
      match parseStrBody cs with
      | some (s, r) => some (.str (String.mk s), r)
      | none => none
    else if c = lbrace then
      match cs with
      | [] => none
      | c2 :: cs2 =>
        if c2 = rbrace then some (.obj [], cs2)
        else parseMembers fuel (c2 :: cs2) []
    else none

def parseMembers : Nat → List Char → List (String × Json) →
    Option (Json × List Char)
  | 0, _, _ => none
  | _ + 1, [], _ => none
  | fuel + 1, c :: cs, acc =>
    if c = quoteC then
      match parseStrBody cs with
      | some (k, r1) =>
        match r1 with
        | ':' :: r2 =>
          match parseValue fuel r2 with
          | some (v, r3) =>
            match r3 with
            | ',' :: r4 => parseMembers fuel r4 (pyUpsert acc (String.mk k) v)
            | c2 :: r4 =>
              if c2 = rbrace then some (.obj (pyUpsert acc (String.mk k) v), r4)
              else none
            | [] => none
          | none => none
        | _ => none
      | none => none
    else none

end

/-- `json.loads`: the whole input must parse as one value with nothing
left over. -/
def json_loads (l : List Char) : Except PyErr Json :=
  match parseValue (l.length + 1) l with
  | some (j, []) => .ok j
  | some (_, _ :: _) => .error .jsonError
  | none => .error .jsonError

/-- `js_to_json` (flojoy.py lines 112-122), operating on the character
list of the input. `split('=')[1]` raises an `IndexError` when the input
has no `=`. -/
def js_to_json_chars (s : List Char) : Except PyErr Json :=
  match (splitChar '=' s).get? 1 with
  | none => .error .indexError
  | some split1 =>
    let c1 := replaceList ['\n'] [] split1
    let c2 := replaceList [aposC] [] c1
    let c3 := replaceList [',', rbrace] [rbrace] c2
    let clean := rstripSemi c3
    let single_space := clean.filter (fun c => !isSpaceChar c)
    let dbl_quotes := quoteWords single_space
    let dq2 := replaceList [quoteC, quoteC] [quoteC] dbl_quotes
    let rm_comma := replaceList [rbrace, ',', rbrace] [rbrace, rbrace] dq2
    json_loads rm_comma

def js_to_json (s : String) : Except PyErr Json :=
  js_to_json_chars s.data

/-- One `<key>: <value>` member of the claimed input form. -/
def renderPair (kv : List Char × List Char) : List Char :=
  kv.1 ++ ':' :: ' ' :: kv.2

/-- The members joined by a comma and a space. -/
def renderMembers : List (List Char × List Char) → List Char
  | [] => []
  | [kv] => renderPair kv
  | kv :: rest => renderPair kv ++ ',' :: ' ' :: renderMembers rest

/-- An input of the claimed form `<name> = { <members> };`. -/
def renderInput (name : List Char) (pairs : List (List Char × List Char)) :
    List Char :=
  name ++ ' ' :: '=' :: ' ' :: lbrace :: renderMembers pairs ++ [rbrace, ';']

/-- The dict that `json.loads` builds from the members, in order, with a
later duplicate key overriding an earlier one. -/
def buildObj (pairs : List (List Char × List Char)) : List (String × Json) :=
  pairs.foldl (fun acc kv => pyUpsert acc (String.mk kv.1) (.str (String.mk kv.2))) []

/-- All characters of a list are word characters. -/
def wordOnly (l : List Char) : Prop :=
  ∀ c ∈ l, isWordChar c = true

/-- The members with all whitespace removed, the intermediate form after
the whitespace-stripping stage. -/
def strippedMembers : List (List Char × List Char) → List Char
  | [] => []
  | [kv] => kv.1 ++ ':' :: kv.2
  | kv :: rest => kv.1 ++ ':' :: kv.2 ++ ',' :: strippedMembers rest

/-- One member after the quoting stage. -/
def quotedPair (kv : List Char × List Char) : List Char :=
  quoteC :: kv.1 ++ quoteC :: ':' :: quoteC :: kv.2 ++ [quoteC]

/-- The members after the quoting stage. -/
def quotedMembers : List (List Char × List Char) → List Char
  | [] => []
  | [kv] => quotedPair kv
  | kv :: rest => quotedPair kv ++ ',' :: quotedMembers rest

/-! `fetch_inputs` (flojoy.py lines 130-154). The Redis lookup
`Job.fetch(ea, connection=Redis()).result` is abstracted as a function
from job id to `Except`: an `error` is an exception raised during the
fetch. The boolean in the result records whether a traceback was printed
(the `except` branch ran). -/

def fetchLoop {E R : Type} (fetch : String → Except E R) :
    List String → List R → List R × Bool
  | [], acc => (acc, false)
  | jid :: rest, acc =>
    match fetch jid with
    | .ok r => fetchLoop fetch rest (acc ++ [r])
    | .error _ => (acc, true)

/-- `fetch_inputs`: in mock mode a fixed placeholder input list is
returned (here the parameter `mockInput`, standing for
`VectorXY(x=np.linspace(0,10,100))`); otherwise each predecessor result is
fetched in order inside one `try`, and the first exception stops the loop,
prints the traceback, and lets the accumulated list be returned. -/
def fetch_inputs {E R : Type} (fetch : String → Except E R) (mockInput : R)
    (previous_job_ids : List String) (mock : Bool) : List R × Bool :=
  if mock then ([mockInput], false)
  else fetchLoop fetch previous_job_ids []

/-- The results of the fetches before the first failing one: the reference
value for what `fetch_inputs` returns when a fetch fails. -/
def okRunOf {E R : Type} (fetch : String → Except E R) :
    List String → List R
  | [] => []
  | jid :: rest =>
    match fetch jid with
    | .ok r => r :: okRunOf fetch rest
    | .error _ => []

def isOkE {E R : Type} : Except E R → Bool
  | .ok _ => true
  | .error _ => false

/-! The `flojoy` decorator's `inner` (flojoy.py lines 196-220). The
manifest (`get_parameter_manifest()`) and the control-panel state
(`CtrlPanel().get_state()`) are file-backed in the source and are passed
in here; the manifest maps a function name to a dict of parameter dicts,
each expected to hold a `default` key. -/

/-- The `default_params` loop: `for param in pm[FN]:
default_params[param] = pm[FN][param]['default']`, raising a `KeyError`
when an entry has no `default` key. -/
def buildDefaults {α : Type} :
    PyDict (PyDict α) → PyDict α → Except PyErr (PyDict α)
  | [], acc => .ok acc
  | (p, entry) :: rest, acc =>
    match pyLookup entry "default" with
    | some d => buildDefaults rest (pyUpsert acc p d)
    | none => .error (.keyError "default")

/-- The fill loop: for each default key missing from `func_params`, insert
the default value. -/
def fillDefaults {α : Type} (defaults cur : PyDict α) : PyDict α :=
  defaults.foldl (fun fp kv => if pyMem fp kv.1 then fp else pyUpsert fp kv.1 kv.2) cur

/-- `inner`: resolve the parameters for `FN` from the manifest and the
panel state, fetch the node inputs, and call the wrapped function. -/
def inner {α β γ E : Type} (FN : String) (func : List β → PyDict α → γ)
    (pm : PyDict (PyDict (PyDict α))) (panelState : PyDict (PyDict α))
    (fetch : String → Except E β) (mockInput : β)
    (previous_job_ids : List String) (mock : Bool) : Except PyErr γ :=
  match pyLookup pm FN with
  | none => .error (.keyError FN)
  | some fnEntry =>
    match buildDefaults fnEntry [] with
    | .error e => .error e
    | .ok default_params =>
      let func_params :=
        match pyLookup panelState FN with
        | some u => u
        | none => default_params
      let func_params := fillDefaults default_params func_params
      let node_inputs := (fetch_inputs fetch mockInput previous_job_ids mock).1
      .ok (func node_inputs func_params)

end Flojoy

namespace RqWorker

/-! The Windows worker (`flojoy/rq_worker.py`). -/

inductive JobStatus where
  | queued
  | started
  | finished
  | failed
  deriving DecidableEq, Repr

/-- Exceptions that can cross `perform_job`: the rq `JobTimeoutException`
raised by the death penalty, an exception raised by the job function, and
a store failure raised by `pipeline.execute()`. -/
inductive WorkerExc where
  | jobTimeoutExc (message : String)
  | userExc (message : String)
  | storeExc (message : String)
  deriving DecidableEq, Repr

def isTimeoutExc : WorkerExc → Bool
  | .jobTimeoutExc _ => true
  | _ => false

inductive LogLevel where
  | info
  | warning
  deriving DecidableEq, Repr

/-- The state of a `threading.Timer`: started, already run, or cancelled
while still waiting. -/
inductive TimerState where
  | armed
  | fired
  | cancelled
  deriving DecidableEq, Repr

/-- A `WindowsSignalDeathPenalty` instance: `_timeout`, `_exception` (the
exception constructor, applied to the message), and `_timer`
(`None` until `setup_death_penalty` runs). -/
structure DeathPenalty where
  timeout : Int
  exc : String → WorkerExc
  timer : Option TimerState

/-- Construction `WindowsSignalDeathPenalty(timeout, exception,
job_id=...)`: the base class stores the timeout and the exception
constructor and ignores extra keyword arguments, so the job id passed at
the call site (rq_worker.py line 94) is accepted here and dropped, and
`__init__` sets `_timer = None`. -/
def initPenalty (timeout : Int) (exception : String → WorkerExc)
    (_job_id : String) : DeathPenalty :=
  { timeout := timeout, exc := exception, timer := none }

/-- `handle_death_penalty` (rq_worker.py lines 156-159): raise the
configured exception with a message formatted from the timeout alone. -/
def handle_death_penalty (p : DeathPenalty) : WorkerExc :=
  p.exc ("Task exceeded maximum timeout value (" ++ toString p.timeout ++ " seconds)")

/-- `setup_death_penalty`: create and start the timer thread. -/
def setup_death_penalty (p : DeathPenalty) : DeathPenalty :=
  { p with timer := some .armed }

/-- `cancel_death_penalty`: `if self._timer: self._timer.cancel()`.
`Timer.cancel` stops the timer only while it is still waiting. -/
def cancel_death_penalty (p : DeathPenalty) : DeathPenalty :=
  match p.timer with
  | none => p
  | some .armed => { p with timer := some .cancelled }
  | some .fired => p
  | some .cancelled => p

/-- Whether the timer thread can still run its callback. -/
def canFire (p : DeathPenalty) : Bool :=
  match p.timer with
  | some .armed => true
  | _ => false

/-- Modelled from the spec: the firing semantics of the timer thread
(spec section 4.2). A timer fires only while armed; firing raises the
error built by `handle_death_penalty` into the executing context, and a
cancelled timer never fires even after the wall-clock deadline passes. -/
def fireTimer (p : DeathPenalty) : DeathPenalty × Option WorkerExc :=
  if canFire p then ({ p with timer := some .fired }, some (handle_death_penalty p))
  else (p, none)

/-- Modelled from the spec: the context-manager protocol of the rq
`BaseDeathPenalty` around the protected body (spec section 4.2): arming
happens immediately before the body runs and cancellation happens on every
exit path, normal return or exception, of the protected region. -/
def withDeathPenalty {V : Type} (p : DeathPenalty) (body : Except WorkerExc V) :
    Except WorkerExc V × DeathPenalty :=
  let armed := setup_death_penalty p
  (body, cancel_death_penalty armed)

/-- Modelled from the spec: timed execution of the job body under the
death penalty (spec sections 4.1-4.2). The body takes `duration` seconds
of wall clock; if that exceeds the timeout, the timer fires at the
deadline and the timeout error is raised into the executing context
(the body never completes); otherwise the body finishes first and the
context-manager exit cancels the waiting timer. A tie resolves to the
body. -/
def runJobBody {V : Type} (p : DeathPenalty) (duration : Rat)
    (body : Except WorkerExc V) : Except WorkerExc V × DeathPenalty :=
  let armed := setup_death_penalty p
  if duration > (p.timeout : Rat) then
    let fired := { armed with timer := some TimerState.fired }
    (.error (handle_death_penalty armed), cancel_death_penalty fired)
  else
    (body, cancel_death_penalty armed)

/-- rq `Queue.DEFAULT_TIMEOUT`, used when the job has no timeout. -/
def DEFAULT_TIMEOUT : Int := 180

/-- The job data that `perform_job` consumes: id, timeout (`None` means
the queue default), result TTL (`None` means the worker default),
wall-clock duration of `job.perform()`, and what `job.perform()` would
produce if allowed to complete. -/
structure Job (V : Type) where
  id : String
  timeout : Option Int
  result_ttl : Option Int
  duration : Rat
  outcome : Except WorkerExc V

/-- Observable outcome of `WindowsWorker.perform_job`: the returned
boolean, the job record fields, what was applied against the store, the
exception passed to `self.handle_exception` (if any), the log lines, the
resolved result TTL (`none` when the failure came before it was
computed), and the final penalty. -/
structure PerformResult (V : Type) where
  returnValue : Bool
  status : JobStatus
  result : Option V
  saved : Bool
  dependentsEnqueued : Bool
  successCountIncremented : Bool
  handledExc : Option WorkerExc
  logs : List (LogLevel × String)
  resultTtl : Option Int
  penalty : DeathPenalty

/-- `WindowsWorker.perform_job` (rq_worker.py lines 80-142).
`defaultResultTtl` is `self.default_result_ttl`; `rvIsNone` is the Python
`rv is None` test on the return value; `pipelineExc` is the outcome of
`pipeline.execute()` (`some e` when the store transaction raises, in which
case none of the pipelined commands are applied). -/
def perform_job {V : Type} (defaultResultTtl : Int) (rvIsNone : V → Bool)
    (job : Job V) (pipelineExc : Option WorkerExc) : PerformResult V :=
  let timeout := job.timeout.getD DEFAULT_TIMEOUT
  let p0 := initPenalty timeout WorkerExc.jobTimeoutExc job.id
  let (rv, pFinal) := runJobBody p0 job.duration job.outcome
  match rv with
  | .error e =>
    { returnValue := false
      status := .failed
      result := none
      saved := false
      dependentsEnqueued := false
      successCountIncremented := false
      handledExc := some e
      logs := []
      resultTtl := none
      penalty := pFinal }
  | .ok v =>
    let result_ttl := job.result_ttl.getD defaultResultTtl
    match pipelineExc with
    | some e =>
      { returnValue := false
        status := .failed
        result := some v
        saved := false
        dependentsEnqueued := false
        successCountIncremented := false
        handledExc := some e
        logs := []
        resultTtl := some result_ttl
        penalty := pFinal }
    | none =>
      let okLog : LogLevel × String :=
        if rvIsNone v then (.info, "Job OK") else (.info, "Job OK, result =")
      let ttlLog : LogLevel × String :=
        if result_ttl = 0 then (.info, "Result discarded immediately.")
        else if result_ttl > 0 then
          (.info, "Result is kept for " ++ toString result_ttl ++ " seconds.")
        else (.warning, "Result will never expire, clean up result key manually.")
      { returnValue := true
        status := .finished
        result := some v
        saved := result_ttl ≠ 0
        dependentsEnqueued := true
        successCountIncremented := true
        handledExc := none
        logs := [okLog, ttlLog]
        resultTtl := some result_ttl
        penalty := pFinal }

end RqWorker

namespace Flojoy

/-! Association-list lemmas. -/

theorem pyLookup_pyUpsert_self {α : Type} (d : PyDict α) (k : String) (v : α) :
    pyLookup (pyUpsert d k v) k = some v := by
  induction d with
  | nil => simp [pyUpsert, pyLookup]
  | cons kv rest ih =>
    obtain ⟨k2, w⟩ := kv
    by_cases hk : k2 = k
    · simp [pyUpsert, hk, pyLookup]
    · simp [pyUpsert, hk, pyLookup, ih]

theorem pyLookup_pyUpsert_ne {α : Type} (d : PyDict α) {k k2 : String} (v : α)
    (h : k ≠ k2) : pyLookup (pyUpsert d k v) k2 = pyLookup d k2 := by
  induction d with
  | nil => simp [pyUpsert, pyLookup, h]
  | cons kv rest ih =>
    obtain ⟨k3, w⟩ := kv
    by_cases hk : k3 = k
    · subst hk
      simp [pyUpsert, pyLookup, h]
    · simp [pyUpsert, hk, pyLookup, ih]

theorem mem_pyUpsert {α : Type} (d : PyDict α) (k : String) (v : α)
    (kv : String × α) : kv ∈ pyUpsert d k v → kv = (k, v) ∨ kv ∈ d := by
  induction d with
  | nil => intro h; simpa [pyUpsert] using h
  | cons kv2 rest ih =>
    obtain ⟨k2, w⟩ := kv2
    intro h
    by_cases hk : k2 = k
    · subst hk
      simp only [pyUpsert, if_true, eq_self_iff_true, List.mem_cons, if_pos] at h
      rcases h with h | h
      · exact Or.inl h
      · exact Or.inr (List.mem_cons_of_mem _ h)
    · simp only [pyUpsert, if_neg hk, List.mem_cons] at h
      rcases h with h | h
      · exact Or.inr (h ▸ List.mem_cons_self _ _)
      · rcases ih h with h2 | h2
        · exact Or.inl h2
        · exact Or.inr (List.mem_cons_of_mem _ h2)

theorem pyLookup_mem {α : Type} (d : PyDict α) (k : String) (v : α) :
    pyLookup d k = some v → (k, v) ∈ d := by
  induction d with
  | nil => intro h; simp [pyLookup] at h
  | cons kv rest ih =>
    obtain ⟨k2, w⟩ := kv
    intro h
    by_cases hk : k2 = k
    · subst hk
      simp only [pyLookup, if_true, eq_self_iff_true, Option.some.injEq, if_pos] at h
      subst h
      exact List.mem_cons_self _ _
    · simp only [pyLookup, if_neg hk] at h
      exact List.mem_cons_of_mem _ (ih h)

theorem pyKeys_pyUpsert_of_mem {α : Type} (d : PyDict α) (k : String) (v : α) :
    pyMem d k = true → pyKeys (pyUpsert d k v) = pyKeys d := by
  induction d with
  | nil => intro h; simp [pyMem, pyLookup] at h
  | cons kv rest ih =>
    obtain ⟨k2, w⟩ := kv
    intro h
    by_cases hk : k2 = k
    · simp [pyUpsert, hk, pyKeys]
    · simp only [pyMem, pyLookup, if_neg hk] at h
      have h2 := ih (by simpa [pyMem] using h)
      simp only [pyUpsert, if_neg hk, pyKeys, List.map_cons, List.cons.injEq, true_and]
      simpa [pyKeys] using h2

/-! `fetch_inputs` lemmas. -/

theorem fetchLoop_eq {E R : Type} (fetch : String → Except E R)
    (ids : List String) (acc : List R) :
    fetchLoop fetch ids acc
      = (acc ++ okRunOf fetch ids, ids.any fun j => !isOkE (fetch j)) := by
  induction ids generalizing acc with
  | nil => simp [fetchLoop, okRunOf]
  | cons jid rest ih =>
    cases hf : fetch jid with
    | ok r => simp [fetchLoop, hf, okRunOf, ih, isOkE]
    | error e => simp [fetchLoop, hf, okRunOf, isOkE]

end Flojoy

open Flojoy in
/-- Claim C2, as stated, is false: when a later fetch fails after an
earlier one succeeded, `fetch_inputs` returns the non-empty partial list,
not an empty list. Concretely, with two predecessor jobs where the fetch
of `a` yields 1 and the fetch of `b` raises, a fetch failure occurs yet
the returned input list is `[1]`, which is not empty. -/
theorem claim_C2_counterexample :
    (∃ j ∈ ["a", "b"],
      isOkE ((fun j => if j = "a" then (.ok 1 : Except String Nat)
                       else .error "boom") j) = false) ∧
    (fetch_inputs
        (fun j => if j = "a" then (.ok 1 : Except String Nat) else .error "boom")
        0 ["a", "b"] false).1 = [1] := by
  constructor
  · exact ⟨"b", by decide, by decide⟩
  · decide

open Flojoy in
/-- Claim C2 (amended): in non-mock mode `fetch_inputs` returns exactly
the results fetched before the first failing fetch (so the list is empty
only when the first fetch fails), together with a logged traceback exactly
when some fetch in the list raises; no exception propagates (the function
is total), and whether the decorated function runs does not depend on the
fetch outcomes. -/
theorem claim_C2 {E R : Type} (fetch : String → Except E R) (mockInput : R)
    (ids : List String) :
    fetch_inputs fetch mockInput ids false
      = (okRunOf fetch ids, ids.any fun j => !isOkE (fetch j)) ∧
    ∀ (α γ : Type) (FN : String) (func : List R → PyDict α → γ)
      (pm : PyDict (PyDict (PyDict α))) (panel : PyDict (PyDict α))
      (fetch2 : String → Except E R) (mock : Bool),
      isOkE (inner FN func pm panel fetch mockInput ids mock)
        = isOkE (inner FN func pm panel fetch2 mockInput ids mock) := by
  constructor
  · simpa [fetch_inputs] using fetchLoop_eq fetch ids []
  · intro α γ FN func pm panel fetch2 mock
    unfold Flojoy.inner
    cases pyLookup pm FN with
    | none => rfl
    | some e =>
      cases hbd : buildDefaults e [] with
      | error _ => simp only [hbd]
      | ok d => simp only [hbd, isOkE]

namespace Flojoy

/-- The starts-with test holds whenever the pattern itself leads. -/
theorem startsWithL_append_self (p t : List Char) :
    startsWithL p (p ++ t) = true := by
  induction p with
  | nil => simp [startsWithL]
  | cons c cs ih => simp [startsWithL, ih]

/-- A pattern occurs in any list that contains it contiguously. -/
theorem occursL_append_self (p a b : List Char) :
    occursL p (a ++ p ++ b) = true := by
  induction a with
  | nil =>
    cases hp : p ++ b with
    | nil => simpa [occursL, hp, startsWithL] using startsWithL_append_self p b
    | cons c cs =>
      have h := startsWithL_append_self p b
      simp only [List.nil_append]
      rw [hp] at h
      simp [occursL, hp, h]
  | cons c cs ih =>
    simp only [List.cons_append, occursL, List.append_eq, ih, Bool.or_true]

end Flojoy

open RqWorker in
/-- Claim C3: on the success path of `perform_job` (the body completes in
time with a value and the store transaction succeeds), the resolved result
TTL selects exactly one of the three branches: TTL = 0 skips `job.save`
and logs the discard message at info level, TTL > 0 saves and logs the
retention message at info level, TTL < 0 saves and logs the never-expire
message at warning level; in every branch that branch's line is the second
and last log line. -/
theorem claim_C3 {V : Type} (defaultResultTtl : Int) (rvIsNone : V → Bool)
    (job : Job V) (v : V) (ttl : Int)
    (hdur : job.duration ≤ ((job.timeout.getD DEFAULT_TIMEOUT : Int) : Rat))
    (hout : job.outcome = .ok v)
    (httl : job.result_ttl.getD defaultResultTtl = ttl) :
    (perform_job defaultResultTtl rvIsNone job none).resultTtl = some ttl ∧
    (ttl = 0 →
      (perform_job defaultResultTtl rvIsNone job none).saved = false ∧
      (perform_job defaultResultTtl rvIsNone job none).logs.get? 1
        = some (.info, "Result discarded immediately.") ∧
      (perform_job defaultResultTtl rvIsNone job none).logs.length = 2) ∧
    (ttl > 0 →
      (perform_job defaultResultTtl rvIsNone job none).saved = true ∧
      (perform_job defaultResultTtl rvIsNone job none).logs.get? 1
        = some (.info, "Result is kept for " ++ toString ttl ++ " seconds.") ∧
      (perform_job defaultResultTtl rvIsNone job none).logs.length = 2) ∧
    (ttl < 0 →
      (perform_job defaultResultTtl rvIsNone job none).saved = true ∧
      (perform_job defaultResultTtl rvIsNone job none).logs.get? 1
        = some (.warning, "Result will never expire, clean up result key manually.") ∧
      (perform_job defaultResultTtl rvIsNone job none).logs.length = 2) := by
  have hne : ¬ job.duration > ((job.timeout.getD DEFAULT_TIMEOUT : Int) : Rat) :=
    not_lt.mpr hdur
  simp only [perform_job, runJobBody, initPenalty, setup_death_penalty, hne,
    if_false, hout, httl]
  refine ⟨by simp, ?_, ?_, ?_⟩
  · intro h0
    subst h0
    simp
  · intro hpos
    have h0 : ¬ ttl = 0 := by omega
    simp [h0, hpos]
  · intro hneg
    have h0 : ¬ ttl = 0 := by omega
    have h1 : ¬ ttl > 0 := by omega
    simp [h0, h1]

open RqWorker in
/-- Witness for claim C3 at concrete jobs: one for each TTL branch. -/
theorem claim_C3_witness :
    ((perform_job 500 (fun _ => false)
        ⟨"j0", some 10, some 0, 1, .ok 42⟩ none).saved = false ∧
      (perform_job 500 (fun _ => false)
        ⟨"j0", some 10, some 0, 1, .ok 42⟩ none).logs.get? 1
        = some (.info, "Result discarded immediately.")) ∧
    ((perform_job 500 (fun _ => false)
        ⟨"j1", some 10, some 7, 1, .ok 42⟩ none).saved = true ∧
      (perform_job 500 (fun _ => false)
        ⟨"j1", some 10, some 7, 1, .ok 42⟩ none).logs.get? 1
        = some (.info, "Result is kept for " ++ toString (7 : Int) ++ " seconds.")) ∧
    ((perform_job 500 (fun _ => false)
        ⟨"j2", some 10, some (-1), 1, .ok 42⟩ none).saved = true ∧
      (perform_job 500 (fun _ => false)
        ⟨"j2", some 10, some (-1), 1, .ok 42⟩ none).logs.get? 1
        = some (.warning, "Result will never expire, clean up result key manually.")) := by
  refine ⟨?_, ?_, ?_⟩
  · have h := claim_C3 (V := Nat) 500 (fun _ => false)
      ⟨"j0", some 10, some 0, 1, .ok 42⟩ 42 0 (by norm_num) rfl rfl
    exact ⟨(h.2.1 rfl).1, (h.2.1 rfl).2.1⟩
  · have h := claim_C3 (V := Nat) 500 (fun _ => false)
      ⟨"j1", some 10, some 7, 1, .ok 42⟩ 42 7 (by norm_num) rfl rfl
    exact ⟨(h.2.2.1 (by norm_num)).1, (h.2.2.1 (by norm_num)).2.1⟩
  · have h := claim_C3 (V := Nat) 500 (fun _ => false)
      ⟨"j2", some 10, some (-1), 1, .ok 42⟩ 42 (-1) (by norm_num) rfl rfl
    exact ⟨(h.2.2.2 (by norm_num)).1, (h.2.2.2 (by norm_num)).2.1⟩

open RqWorker in
/-- Claim C4: if any exception is raised during `perform_job` — the
timeout interrupt, an exception from the job body, or a failure of the
store transaction — the job status is FAILED, the exception handler is
invoked (with that exception), and `perform_job` returns False; if the
body returns a value in time and the success bookkeeping completes, the
status is FINISHED, the job result is the returned value, and
`perform_job` returns True. -/
theorem claim_C4 {V : Type} (defaultResultTtl : Int) (rvIsNone : V → Bool)
    (job : Job V) (pipelineExc : Option WorkerExc) :
    ((job.duration > ((job.timeout.getD DEFAULT_TIMEOUT : Int) : Rat)
        ∨ (∃ e, job.outcome = .error e)
        ∨ (∃ e, pipelineExc = some e)) →
      (perform_job defaultResultTtl rvIsNone job pipelineExc).status = .failed ∧
      (perform_job defaultResultTtl rvIsNone job pipelineExc).handledExc.isSome = true ∧
      (perform_job defaultResultTtl rvIsNone job pipelineExc).returnValue = false) ∧
    (∀ v : V,
      job.duration ≤ ((job.timeout.getD DEFAULT_TIMEOUT : Int) : Rat) →
      job.outcome = .ok v →
      pipelineExc = none →
      (perform_job defaultResultTtl rvIsNone job pipelineExc).status = .finished ∧
      (perform_job defaultResultTtl rvIsNone job pipelineExc).result = some v ∧
      (perform_job defaultResultTtl rvIsNone job pipelineExc).returnValue = true) := by
  constructor
  · intro hexc
    by_cases hdur : job.duration > ((job.timeout.getD DEFAULT_TIMEOUT : Int) : Rat)
    · simp [perform_job, runJobBody, initPenalty, setup_death_penalty, hdur]
    · cases hout : job.outcome with
      | error e =>
        simp [perform_job, runJobBody, initPenalty, setup_death_penalty, hdur, hout]
      | ok v =>
        rcases hexc with h | ⟨e, h⟩ | ⟨e, h⟩
        · exact absurd h hdur
        · rw [hout] at h
          exact absurd h (by simp)
        · subst h
          simp [perform_job, runJobBody, initPenalty, setup_death_penalty, hdur, hout]
  · intro v hdur hout hpipe
    subst hpipe
    have hne : ¬ job.duration > ((job.timeout.getD DEFAULT_TIMEOUT : Int) : Rat) :=
      not_lt.mpr hdur
    simp [perform_job, runJobBody, initPenalty, setup_death_penalty, hne, hout]

open RqWorker in
/-- Witness for claim C4: a job whose body raises is FAILED with the
handler invoked and return value False; a job whose body succeeds in time
is FINISHED with its value and return value True. -/
theorem claim_C4_witness :
    ((perform_job (V := Nat) 500 (fun _ => false)
        ⟨"jf", some 10, some 5, 1, .error (.userExc "boom")⟩ none).status = .failed ∧
      (perform_job (V := Nat) 500 (fun _ => false)
        ⟨"jf", some 10, some 5, 1, .error (.userExc "boom")⟩ none).returnValue = false) ∧
    ((perform_job 500 (fun _ => false)
        ⟨"jg", some 10, some 5, 1, .ok (3 : Nat)⟩ none).status = .finished ∧
      (perform_job 500 (fun _ => false)
        ⟨"jg", some 10, some 5, 1, .ok (3 : Nat)⟩ none).result = some 3 ∧
      (perform_job 500 (fun _ => false)
        ⟨"jg", some 10, some 5, 1, .ok (3 : Nat)⟩ none).returnValue = true) := by
  constructor
  · have h := (claim_C4 (V := Nat) 500 (fun _ => false)
      ⟨"jf", some 10, some 5, 1, .error (.userExc "boom")⟩ none).1
      (Or.inr (Or.inl ⟨.userExc "boom", rfl⟩))
    exact ⟨h.1, h.2.2⟩
  · exact (claim_C4 (V := Nat) 500 (fun _ => false)
      ⟨"jg", some 10, some 5, 1, .ok 3⟩ none).2 3 (by norm_num) rfl rfl

open RqWorker in
/-- Claim C5: cancelling an armed death penalty moves its timer to the
cancelled state, after which a fire attempt does nothing even though the
wall-clock deadline may pass later; and because the penalty is used as a
scoped context around the protected body, the body's outcome propagates
unchanged while the timer is disarmed on every exit path (normal return
or exception), so no orphaned timer stays armed — in particular the
penalty left behind by `perform_job` can never fire. -/
theorem claim_C5 (p : DeathPenalty) :
    (p.timer = some .armed →
      (cancel_death_penalty p).timer = some .cancelled ∧
      fireTimer (cancel_death_penalty p) = (cancel_death_penalty p, none)) ∧
    (∀ (V : Type) (body : Except WorkerExc V),
      (withDeathPenalty p body).1 = body ∧
      canFire (withDeathPenalty p body).2 = false ∧
      (fireTimer (withDeathPenalty p body).2).2 = none) ∧
    (∀ (V : Type) (defaultResultTtl : Int) (rvIsNone : V → Bool) (job : Job V)
        (pipelineExc : Option WorkerExc),
      canFire (perform_job defaultResultTtl rvIsNone job pipelineExc).penalty = false) := by
  refine ⟨?_, ?_, ?_⟩
  · intro h
    constructor
    · simp [cancel_death_penalty, h]
    · simp [cancel_death_penalty, h, fireTimer, canFire]
  · intro V body
    refine ⟨rfl, ?_, ?_⟩
    · simp [withDeathPenalty, setup_death_penalty, cancel_death_penalty, canFire]
    · simp [withDeathPenalty, setup_death_penalty, cancel_death_penalty, fireTimer, canFire]
  · intro V dttl rvN job pexc
    by_cases hdur : job.duration > ((job.timeout.getD DEFAULT_TIMEOUT : Int) : Rat)
    · cases job.outcome with
      | ok v =>
        cases pexc with
        | none =>
          simp [perform_job, runJobBody, initPenalty, hdur, setup_death_penalty,
            cancel_death_penalty, canFire]
        | some e =>
          simp [perform_job, runJobBody, initPenalty, hdur, setup_death_penalty,
            cancel_death_penalty, canFire]
      | error e =>
        simp [perform_job, runJobBody, initPenalty, hdur, setup_death_penalty,
          cancel_death_penalty, canFire]
    · cases hout : job.outcome with
      | ok v =>
        cases pexc with
        | none =>
          simp [perform_job, runJobBody, initPenalty, hdur, hout, setup_death_penalty,
            cancel_death_penalty, canFire]
        | some e =>
          simp [perform_job, runJobBody, initPenalty, hdur, hout, setup_death_penalty,
            cancel_death_penalty, canFire]
      | error e =>
        simp [perform_job, runJobBody, initPenalty, hdur, hout, setup_death_penalty,
          cancel_death_penalty, canFire]

open RqWorker in
/-- Witness for claim C5 at a concrete armed penalty and a concrete body. -/
theorem claim_C5_witness :
    (cancel_death_penalty
        { timeout := 5, exc := WorkerExc.jobTimeoutExc, timer := some .armed }).timer
      = some .cancelled ∧
    (fireTimer (withDeathPenalty
        { timeout := 5, exc := WorkerExc.jobTimeoutExc, timer := none }
        (Except.ok (42 : Nat))).2).2 = none := by
  constructor
  · exact ((claim_C5 _).1 rfl).1
  · exact ((claim_C5 _).2.1 Nat (.ok 42)).2.2

open Flojoy RqWorker in
/-- Claim C6, as stated, is false: the error raised by
`handle_death_penalty` carries the configured timeout duration but not the
job identifier. Concretely, for a penalty constructed with timeout 5 and
job id `job-123`, the raised error is the timeout exception with message
`Task exceeded maximum timeout value (5 seconds)`, that message does not
contain the job id, and constructing the penalty with a different job id
yields the identical error. -/
theorem claim_C6_counterexample :
    handle_death_penalty (initPenalty 5 WorkerExc.jobTimeoutExc "job-123")
      = .jobTimeoutExc "Task exceeded maximum timeout value (5 seconds)" ∧
    occursL "job-123".data
      "Task exceeded maximum timeout value (5 seconds)".data = false ∧
    handle_death_penalty (initPenalty 5 WorkerExc.jobTimeoutExc "job-123")
      = handle_death_penalty (initPenalty 5 WorkerExc.jobTimeoutExc "zzz") := by
  refine ⟨by decide, by decide, rfl⟩

open Flojoy RqWorker in
/-- Claim C6 (amended): when the death-penalty timer fires it raises the
configured timeout exception type — distinguished from ordinary job
exceptions — whose message carries the configured timeout duration; the
job identifier, although passed to the penalty constructor at the call
site in `perform_job`, is ignored and does not appear in the raised
error, which is the same for every job id. -/
theorem claim_C6 (T : Int) (jid : String) :
    handle_death_penalty (initPenalty T WorkerExc.jobTimeoutExc jid)
      = .jobTimeoutExc
          ("Task exceeded maximum timeout value (" ++ toString T ++ " seconds)") ∧
    isTimeoutExc (handle_death_penalty (initPenalty T WorkerExc.jobTimeoutExc jid))
      = true ∧
    occursL (toString T).data
      ("Task exceeded maximum timeout value (" ++ toString T ++ " seconds)").data
      = true ∧
    ∀ jid2, handle_death_penalty (initPenalty T WorkerExc.jobTimeoutExc jid)
      = handle_death_penalty (initPenalty T WorkerExc.jobTimeoutExc jid2) := by
  refine ⟨rfl, rfl, ?_, fun _ => rfl⟩
  have h := occursL_append_self (toString T).data
    "Task exceeded maximum timeout value (".data " seconds)".data
  simpa [String.data_append] using h

open RqWorker in
/-- Claim C8: for a job with timeout T whose function takes D seconds, if
D exceeds T the worker records the job as FAILED and hands the exception
handler a timeout-kind error; if D is within T (and the function returns
a value, the store transaction succeeding) the worker records FINISHED
with the function's return value as the job's result. -/
theorem claim_C8 {V : Type} (defaultResultTtl : Int) (rvIsNone : V → Bool)
    (T : Int) (job : Job V) (htime : job.timeout = some T) :
    (job.duration > (T : Rat) →
      (perform_job defaultResultTtl rvIsNone job none).status = .failed ∧
      ∃ e, (perform_job defaultResultTtl rvIsNone job none).handledExc = some e ∧
        isTimeoutExc e = true) ∧
    (∀ v : V, job.duration ≤ (T : Rat) → job.outcome = .ok v →
      (perform_job defaultResultTtl rvIsNone job none).status = .finished ∧
      (perform_job defaultResultTtl rvIsNone job none).result = some v ∧
      (perform_job defaultResultTtl rvIsNone job none).returnValue = true) := by
  constructor
  · intro hdur
    have hd2 : job.duration > ((job.timeout.getD DEFAULT_TIMEOUT : Int) : Rat) := by
      rw [htime]
      exact hdur
    constructor
    · simp [perform_job, runJobBody, initPenalty, setup_death_penalty, hd2]
    · refine ⟨.jobTimeoutExc
        ("Task exceeded maximum timeout value ("
          ++ toString (job.timeout.getD DEFAULT_TIMEOUT) ++ " seconds)"), ?_, rfl⟩
      simp [perform_job, runJobBody, initPenalty, setup_death_penalty,
        handle_death_penalty, hd2]
  · intro v hdur hout
    have hne : ¬ job.duration > ((job.timeout.getD DEFAULT_TIMEOUT : Int) : Rat) := by
      rw [htime]
      exact not_lt.mpr hdur
    simp [perform_job, runJobBody, initPenalty, setup_death_penalty, hne, hout]

open RqWorker in
/-- Witness for claim C8: a 20-second job against a 10-second timeout
fails with a timeout-kind error; a 3-second job against the same timeout
finishes with its value. -/
theorem claim_C8_witness :
    ((perform_job (V := Nat) 500 (fun _ => false)
        ⟨"slow", some 10, some 5, 20, .ok 1⟩ none).status = .failed ∧
      ∃ e, (perform_job (V := Nat) 500 (fun _ => false)
          ⟨"slow", some 10, some 5, 20, .ok 1⟩ none).handledExc = some e ∧
        isTimeoutExc e = true) ∧
    ((perform_job (V := Nat) 500 (fun _ => false)
        ⟨"fast", some 10, some 5, 3, .ok 1⟩ none).status = .finished ∧
      (perform_job (V := Nat) 500 (fun _ => false)
        ⟨"fast", some 10, some 5, 3, .ok 1⟩ none).result = some 1) := by
  constructor
  · exact (claim_C8 (V := Nat) 500 (fun _ => false) 10
      ⟨"slow", some 10, some 5, 20, .ok 1⟩ rfl).1 (by norm_num)
  · have h := (claim_C8 (V := Nat) 500 (fun _ => false) 10
      ⟨"fast", some 10, some 5, 3, .ok 1⟩ rfl).2 1 (by norm_num) rfl
    exact ⟨h.1, h.2.1⟩

namespace Flojoy

/-- `_ndarrayify` only ever returns numpy arrays. -/
theorem ndarrayify_isNd {v w : PyVal}
    (h : VectorXY.ndarrayify v = .ok w) : VectorXY.isNd w = true := by
  cases v <;> simp [VectorXY.ndarrayify] at h <;> simp [← h, VectorXY.isNd]

end Flojoy

open Flojoy VectorXY in
/-- Claim C9: a `VectorXY` holds exactly the keys x and y, each bound to a
numpy array: construction establishes the invariant (missing components
become empty arrays), `__setitem__` preserves it, coerces ints, floats and
lists to arrays, passes arrays through, raises `ValueError` on any other
value type, and raises `KeyError` on any key other than x or y, as does
`__getitem__`. -/
theorem claim_C9 :
    (∀ kwargs s, init kwargs = .ok s → VecInv s) ∧
    (∀ s key v s2, VecInv s → setitem s key v = .ok s2 → VecInv s2) ∧
    (∀ (s : VecState) key, (key = "x" ∨ key = "y") →
      (∀ n : Int, setitem s key (.intV n) = .ok (pyUpsert s key (.ndarray [.intV n]))) ∧
      (∀ f : Nat, setitem s key (.floatV f) = .ok (pyUpsert s key (.ndarray [.floatV f]))) ∧
      (∀ l, setitem s key (.listV l) = .ok (pyUpsert s key (.ndarray l))) ∧
      (∀ a, setitem s key (.ndarray a) = .ok (pyUpsert s key (.ndarray a))) ∧
      (∀ t, setitem s key (.otherV t) = .error .valueError)) ∧
    (∀ s key v, key ≠ "x" → key ≠ "y" → setitem s key v = .error (.keyError key)) ∧
    (∀ s key, key ≠ "x" → key ≠ "y" → getitem s key = .error (.keyError key)) := by
  have hset : ∀ (s : VecState) key v s2, setitem s key v = .ok s2 →
      ∃ v2, ndarrayify v = .ok v2 ∧ s2 = pyUpsert s key v2 ∧
        (key = "x" ∨ key = "y") := by
    intro s key v s2 h
    by_cases hk : key ≠ "x" ∧ key ≠ "y"
    · simp [setitem, hk] at h
    · have hkey : key = "x" ∨ key = "y" := by
        by_cases hx : key = "x"
        · exact Or.inl hx
        · refine Or.inr ?_
          by_contra hy
          exact hk ⟨hx, hy⟩
      rcases hnd : ndarrayify v with e | v2
      · simp [setitem, hk, hnd] at h
      · simp only [setitem, hnd, if_neg hk] at h
        exact ⟨v2, rfl, (by simpa using h.symm), hkey⟩
  refine ⟨?_, ?_, ?_, ?_, ?_⟩
  · intro kwargs s h
    rcases hx : pyLookup kwargs "x" with _ | vx <;>
      rcases hy : pyLookup kwargs "y" with _ | vy
    · simp [init, hx, hy, setitem, ndarrayify, pure, bind, Except.bind, Except.pure, pyUpsert] at h
      simp [VecInv, ← h, pyKeys, VectorXY.isNd]
    · cases vy <;>
        simp [init, hx, hy, setitem, ndarrayify, pure, bind, Except.bind,
          Except.pure, pyUpsert] at h <;>
        simp [VecInv, ← h, pyKeys, VectorXY.isNd]
    · cases vx <;>
        simp [init, hx, hy, setitem, ndarrayify, pure, bind, Except.bind,
          Except.pure, pyUpsert] at h <;>
        simp [VecInv, ← h, pyKeys, VectorXY.isNd]
    · cases vx <;> cases vy <;>
        simp [init, hx, hy, setitem, ndarrayify, pure, bind, Except.bind,
          Except.pure, pyUpsert] at h <;>
        simp [VecInv, ← h, pyKeys, VectorXY.isNd]
  · intro s key v s2 hinv hok
    obtain ⟨v2, hnd, hs2, hkey⟩ := hset s key v s2 hok
    obtain ⟨hkeys, hvals⟩ := hinv
    have hmem : pyMem s key = true := by
      match s, hkeys with
      | [(k1, w1), (k2, w2)], hkeys =>
        simp only [pyKeys, List.map_cons, List.map_nil, List.cons.injEq] at hkeys
        obtain ⟨h1, h2, -⟩ := hkeys
        subst h1; subst h2
        rcases hkey with hk | hk <;> subst hk <;> simp [pyMem, pyLookup]
    constructor
    · rw [hs2, pyKeys_pyUpsert_of_mem s key v2 hmem]
      exact hkeys
    · intro kv hkv
      rw [hs2] at hkv
      rcases mem_pyUpsert s key v2 kv hkv with h | h
      · rw [h]
        exact ndarrayify_isNd hnd
      · exact hvals kv h
  · intro s key hkey
    have hno : ¬ (key ≠ "x" ∧ key ≠ "y") := by
      rcases hkey with h | h <;> subst h <;> simp
    refine ⟨?_, ?_, ?_, ?_, ?_⟩ <;> intro a <;>
      simp only [setitem, ndarrayify, if_neg hno]
  · intro s key v hx hy
    simp [setitem, hx, hy]
  · intro s key hx hy
    simp [getitem, hx, hy]

open Flojoy VectorXY in
/-- Witness for claim C9: a concrete construction, a concrete coercing
assignment, and concrete bad-key and bad-value accesses. -/
theorem claim_C9_witness :
    VecInv [("x", PyVal.ndarray []), ("y", PyVal.ndarray [])] ∧
    setitem [("x", PyVal.ndarray []), ("y", PyVal.ndarray [])] "x" (.intV 3)
      = .ok [("x", PyVal.ndarray [.intV 3]), ("y", PyVal.ndarray [])] ∧
    setitem [("x", PyVal.ndarray []), ("y", PyVal.ndarray [])] "z" (.intV 3)
      = .error (.keyError "z") ∧
    setitem [("x", PyVal.ndarray []), ("y", PyVal.ndarray [])] "x" (.otherV "str")
      = .error .valueError ∧
    getitem [("x", PyVal.ndarray []), ("y", PyVal.ndarray [])] "q"
      = .error (.keyError "q") := by
  refine ⟨?_, ?_, ?_, ?_, ?_⟩
  · exact claim_C9.1 [] [("x", PyVal.ndarray []), ("y", PyVal.ndarray [])] rfl
  · exact (claim_C9.2.2.1 [("x", PyVal.ndarray []), ("y", PyVal.ndarray [])] "x"
      (Or.inl rfl)).1 3
  · exact claim_C9.2.2.2.1 [("x", PyVal.ndarray []), ("y", PyVal.ndarray [])] "z"
      (.intV 3) (by decide) (by decide)
  · exact (claim_C9.2.2.1 [("x", PyVal.ndarray []), ("y", PyVal.ndarray [])] "x"
      (Or.inl rfl)).2.2.2.2 "str"
  · exact claim_C9.2.2.2.2 [("x", PyVal.ndarray []), ("y", PyVal.ndarray [])] "q"
      (by decide) (by decide)

namespace Flojoy

theorem pyLookup_eq_none_of_not_mem_keys {α : Type} (d : PyDict α) (p : String) :
    p ∉ pyKeys d → pyLookup d p = none := by
  induction d with
  | nil => intro _; rfl
  | cons kv rest ih =>
    obtain ⟨k, v⟩ := kv
    intro h
    simp only [pyKeys, List.map_cons, List.mem_cons] at h
    push_neg at h
    obtain ⟨h1, h2⟩ := h
    have hkp : ¬ (k = p) := fun he => h1 he.symm
    simp only [pyLookup, if_neg hkp]
    exact ih (by simpa [pyKeys] using h2)

/-- Characterisation of the `default_params` loop: when every manifest
entry has a `default` key and the entry keys are distinct (as they are in
a Python dict), the loop succeeds and the result maps each manifest
parameter to its default, leaving the accumulator for other keys. -/
theorem buildDefaults_ok {α : Type} (entries : PyDict (PyDict α)) :
    ∀ acc, (∀ kv ∈ entries, pyMem kv.2 "default" = true) →
    (pyKeys entries).Nodup →
    ∃ d, buildDefaults entries acc = .ok d ∧
      ∀ p, pyLookup d p =
        (match pyLookup entries p with
         | some e => pyLookup e "default"
         | none => pyLookup acc p) := by
  induction entries with
  | nil =>
    intro acc _ _
    exact ⟨acc, rfl, fun p => by simp [pyLookup]⟩
  | cons qe rest ih =>
    obtain ⟨q, entry⟩ := qe
    intro acc hdef hnodup
    have hq : pyMem entry "default" = true :=
      hdef (q, entry) (List.mem_cons_self _ _)
    obtain ⟨dv, hdv⟩ := Option.isSome_iff_exists.mp (by simpa [pyMem] using hq)
    have hrest : ∀ kv ∈ rest, pyMem kv.2 "default" = true :=
      fun kv hkv => hdef kv (List.mem_cons_of_mem _ hkv)
    have hnodup2 : (pyKeys rest).Nodup := by
      simpa [pyKeys] using hnodup.of_cons
    have hqnot : q ∉ pyKeys rest := by
      have := hnodup
      simp only [pyKeys, List.map_cons, List.nodup_cons] at this
      simpa [pyKeys] using this.1
    obtain ⟨d, hd, hlook⟩ := ih (pyUpsert acc q dv) hrest hnodup2
    refine ⟨d, ?_, ?_⟩
    · simp only [buildDefaults, hdv]
      exact hd
    · intro p
      by_cases hp : q = p
      · subst hp
        have hnone : pyLookup rest q = none :=
          pyLookup_eq_none_of_not_mem_keys rest q hqnot
        rw [hlook q, hnone]
        simp [pyLookup, pyLookup_pyUpsert_self, hdv]
      · rw [hlook p]
        simp only [pyLookup, if_neg hp]
        cases pyLookup rest p with
        | some e => rfl
        | none => exact pyLookup_pyUpsert_ne acc dv hp

/-- Characterisation of the fill loop: an existing binding of
`func_params` wins; a missing one falls back to the first default with
that name. -/
theorem fillDefaults_lookup {α : Type} (defaults : PyDict α) :
    ∀ cur p, pyLookup (fillDefaults defaults cur) p =
      (match pyLookup cur p with
       | some v => some v
       | none => pyLookup defaults p) := by
  induction defaults with
  | nil =>
    intro cur p
    cases h : pyLookup cur p <;> simp [fillDefaults, h, pyLookup]
  | cons kd rest ih =>
    obtain ⟨k, dv⟩ := kd
    intro cur p
    have hstep : fillDefaults ((k, dv) :: rest) cur
        = fillDefaults rest (if pyMem cur k then cur else pyUpsert cur k dv) := by
      simp [fillDefaults]
    rw [hstep]
    by_cases hmem : pyMem cur k = true
    · rw [if_pos hmem, ih cur p]
      cases hc : pyLookup cur p with
      | some v => rfl
      | none =>
        have hkp : ¬ (k = p) := by
          intro hkp
          subst hkp
          simp [pyMem, hc] at hmem
        simp [pyLookup, if_neg hkp]
    · rw [if_neg hmem, ih (pyUpsert cur k dv) p]
      by_cases hkp : k = p
      · subst hkp
        have hc : pyLookup cur k = none := by
          cases hcc : pyLookup cur k with
          | none => rfl
          | some w => simp [pyMem, hcc] at hmem
        rw [hc, pyLookup_pyUpsert_self]
        simp [pyLookup]
      · rw [pyLookup_pyUpsert_ne cur dv hkp]
        cases hc : pyLookup cur p with
        | some v => rfl
        | none => simp [pyLookup, if_neg hkp]

end Flojoy

open Flojoy in
/-- Claim C1: when the manifest has an entry for the decorated function
and each of its parameters has a default, `inner` invokes the wrapped
function without error with a parameter mapping that contains every
manifest parameter, keeps the user value for every parameter present in
the control-panel state for that function, and fills every manifest
parameter absent from the user state with its manifest default. -/
theorem claim_C1 {α β γ E : Type} (FN : String) (func : List β → PyDict α → γ)
    (pm : PyDict (PyDict (PyDict α))) (panel : PyDict (PyDict α))
    (fetch : String → Except E β) (mockInput : β) (ids : List String)
    (mock : Bool) (fnEntry : PyDict (PyDict α))
    (hfn : pyLookup pm FN = some fnEntry)
    (hnodup : (pyKeys fnEntry).Nodup)
    (hdef : ∀ kv ∈ fnEntry, pyMem kv.2 "default" = true) :
    ∃ params,
      inner FN func pm panel fetch mockInput ids mock
        = .ok (func (fetch_inputs fetch mockInput ids mock).1 params) ∧
      (∀ p, pyMem fnEntry p = true → pyMem params p = true) ∧
      (∀ up p v, pyLookup panel FN = some up → pyLookup up p = some v →
        pyLookup params p = some v) ∧
      (∀ p entry dv, pyLookup fnEntry p = some entry →
        pyLookup entry "default" = some dv →
        (match pyLookup panel FN with
         | some up => pyMem up p = false
         | none => True) →
        pyLookup params p = some dv) := by
  obtain ⟨d, hd, hlook⟩ := buildDefaults_ok fnEntry [] hdef hnodup
  set base := (match pyLookup panel FN with
    | some u => u
    | none => d) with hbase
  refine ⟨fillDefaults d base, ?_, ?_, ?_, ?_⟩
  · unfold Flojoy.inner
    simp only [hfn, hd]
  · intro p hp
    obtain ⟨e, he⟩ := Option.isSome_iff_exists.mp (by simpa [pyMem] using hp)
    have hde : pyLookup d p = pyLookup e "default" := by
      rw [hlook p, he]
    rw [pyMem, fillDefaults_lookup d base p]
    cases hc : pyLookup base p with
    | some v => simp
    | none =>
      rw [hde]
      have := hdef (p, e) (pyLookup_mem fnEntry p e he)
      simpa [pyMem] using this
  · intro up p v hup hpv
    rw [fillDefaults_lookup d base p]
    have hb : base = up := by rw [hbase, hup]
    rw [hb, hpv]
  · intro p entry dv hentry hdv habsent
    rw [fillDefaults_lookup d base p]
    have hdp : pyLookup d p = some dv := by
      rw [hlook p, hentry]
      exact hdv
    cases hpan : pyLookup panel FN with
    | none =>
      have hb : base = d := by rw [hbase, hpan]
      rw [hb, hdp]
    | some up =>
      have hb : base = up := by rw [hbase, hpan]
      rw [hpan] at habsent
      have hupnone : pyLookup up p = none := by
        cases hcc : pyLookup up p with
        | none => rfl
        | some w => simp [pyMem, hcc] at habsent
      rw [hb, hupnone, hdp]

open Flojoy in
/-- Witness for claim C1 at the concrete example of the claim: manifest
entry SINE with defaults frequency 1 and amplitude 1, user state setting
frequency to 5; the resolved parameters are frequency 5 and amplitude 1. -/
theorem claim_C1_witness :
    ∃ params,
      inner "SINE" (fun (_ : List Unit) (p : PyDict Int) => p)
        [("SINE", [("frequency", [("default", (1 : Int))]),
                   ("amplitude", [("default", 1)])])]
        [("SINE", [("frequency", 5)])]
        (fun _ => Except.error "no redis") () [] false
        = .ok params ∧
      pyLookup params "frequency" = some 5 ∧
      pyLookup params "amplitude" = some 1 := by
  obtain ⟨params, h1, h2, h3, h4⟩ := claim_C1 "SINE"
    (fun (_ : List Unit) (p : PyDict Int) => p)
    [("SINE", [("frequency", [("default", (1 : Int))]),
               ("amplitude", [("default", 1)])])]
    [("SINE", [("frequency", 5)])]
    (fun _ => Except.error "no redis") () [] false
    [("frequency", [("default", (1 : Int))]), ("amplitude", [("default", 1)])]
    (by decide) (by decide) (by decide)
  refine ⟨params, ?_, ?_, ?_⟩
  · simpa using h1
  · exact h3 [("frequency", 5)] "frequency" 5 (by decide) (by decide)
  · exact h4 "amplitude" [("default", 1)] 1 (by decide) (by decide)
      (by simp [pyLookup, pyMem])

namespace Flojoy

/-- Characterisation of the `get_state` loop: provided every non-edge
element has a `data` member, the loop succeeds, and a label resolves to
the ctrls of the last non-edge element carrying it, else to the
accumulator. -/
theorem getStateAux_lookup {α : Type} (elems : List (FcElement α)) :
    ∀ acc, (∀ el ∈ elems, el.hasSource = true ∨ el.data ≠ none) →
    ∃ m, CtrlPanel.getStateAux elems acc = .ok m ∧
      ∀ l, pyLookup m l =
        (match CtrlPanel.lastCtrl elems l with
         | some c => some c
         | none => pyLookup acc l) := by
  induction elems with
  | nil =>
    intro acc _
    exact ⟨acc, rfl, fun l => by simp [CtrlPanel.lastCtrl]⟩
  | cons el rest ih =>
    intro acc h
    have hrest : ∀ e ∈ rest, e.hasSource = true ∨ e.data ≠ none :=
      fun e he => h e (List.mem_cons_of_mem _ he)
    cases hsrc : el.hasSource with
    | true =>
      obtain ⟨m, hm, hlook⟩ := ih acc hrest
      refine ⟨m, ?_, ?_⟩
      · simpa [CtrlPanel.getStateAux, hsrc] using hm
      · intro l
        rw [hlook l]
        cases hl : CtrlPanel.lastCtrl rest l with
        | some c => simp [CtrlPanel.lastCtrl, hl]
        | none => simp [CtrlPanel.lastCtrl, hl, hsrc]
    | false =>
      have hdata : el.data ≠ none := by
        rcases h el (List.mem_cons_self _ _) with hcontra | hd
        · rw [hsrc] at hcontra
          cases hcontra
        · exact hd
      obtain ⟨dc, hdc⟩ := Option.ne_none_iff_exists.mp hdata
      obtain ⟨m, hm, hlook⟩ := ih (pyUpsert acc (CtrlPanel.elemLabel el) (dc.getD [])) hrest
      refine ⟨m, ?_, ?_⟩
      · simpa [CtrlPanel.getStateAux, hsrc, ← hdc] using hm
      · intro l
        rw [hlook l]
        cases hl : CtrlPanel.lastCtrl rest l with
        | some c => simp [CtrlPanel.lastCtrl, hl]
        | none =>
          by_cases hlab : CtrlPanel.elemLabel el = l
          · subst hlab
            rw [pyLookup_pyUpsert_self]
            have heff : CtrlPanel.effCtrls el = dc.getD [] := by
              simp [CtrlPanel.effCtrls, ← hdc]
            simp [CtrlPanel.lastCtrl, hl, hsrc, heff]
          · rw [pyLookup_pyUpsert_ne acc (dc.getD []) hlab]
            simp [CtrlPanel.lastCtrl, hl, hsrc, hlab]

end Flojoy

open Flojoy in
/-- Claim C7, as stated, is false: `get_state` selects elements by the
absence of a `source` key, not by the presence of a `data.ctrls` mapping.
Concretely, a single element with id `CONST-1`, no source key and a
`data` member without ctrls contributes the pair CONST bound to the empty
dict, although no element has a `data.ctrls` mapping. -/
theorem claim_C7_counterexample :
    CtrlPanel.get_state (α := String)
      [{ hasSource := false, id := "CONST-1", data := some none }]
      = .ok [("CONST", [])] ∧
    ∀ el ∈ ([{ hasSource := false, id := "CONST-1", data := some none }] :
        List (FcElement String)),
      el.data = some none := by
  constructor
  · rfl
  · intro el hel
    simp only [List.mem_singleton] at hel
    rw [hel]

open Flojoy in
/-- Claim C7 (amended): for every state document whose non-edge elements
all have a `data` member, `get_state` returns a mapping that binds LABEL
exactly for the elements without a `source` key, where LABEL is the part
of the id before the first dash, the bound ctrls are the element's
`data.ctrls` if present and the empty dict otherwise, and a later element
with the same LABEL overrides an earlier one. -/
theorem claim_C7 {α : Type} (elems : List (FcElement α))
    (h : ∀ el ∈ elems, el.hasSource = true ∨ el.data ≠ none) :
    ∃ m, CtrlPanel.get_state elems = .ok m ∧
      ∀ l, pyLookup m l = CtrlPanel.lastCtrl elems l := by
  obtain ⟨m, hm, hlook⟩ := getStateAux_lookup elems [] h
  refine ⟨m, hm, fun l => ?_⟩
  rw [hlook l]
  cases hl : CtrlPanel.lastCtrl elems l with
  | some c => rfl
  | none => rfl

open Flojoy in
/-- Witness for claim C7 at a concrete element list: a SINE node with
ctrls, an edge element (which contributes nothing), and a ctrls-less
node. -/
theorem claim_C7_witness :
    ∃ m, CtrlPanel.get_state
        ([{ hasSource := false, id := "SINE-1",
            data := some (some [("frequency", "5")]) },
          { hasSource := true, id := "reactflow-edge", data := none },
          { hasSource := false, id := "CONST-2", data := some none }] :
          List (FcElement String))
        = .ok m ∧
      ∀ l, pyLookup m l = CtrlPanel.lastCtrl
        ([{ hasSource := false, id := "SINE-1",
            data := some (some [("frequency", "5")]) },
          { hasSource := true, id := "reactflow-edge", data := none },
          { hasSource := false, id := "CONST-2", data := some none }] :
          List (FcElement String)) l := by
  exact claim_C7 _ (by decide)

namespace Flojoy

/-! Lemmas for the `js_to_json` pipeline. -/

theorem splitChar_ne_nil (sep : Char) (l : List Char) : splitChar sep l ≠ [] := by
  induction l with
  | nil => simp [splitChar]
  | cons c cs ih =>
    simp only [splitChar]
    cases h : splitChar sep cs with
    | nil => simp
    | cons a t =>
      by_cases hc : c = sep <;> simp [hc]

/-- Splitting a list with no separator occurrence yields the list alone. -/
theorem splitChar_of_not_mem (sep : Char) (l : List Char) (h : sep ∉ l) :
    splitChar sep l = [l] := by
  induction l with
  | nil => rfl
  | cons c cs ih =>
    simp only [List.mem_cons] at h
    push_neg at h
    have hrec := ih h.2
    have hcs : ¬ c = sep := fun he => h.1 he.symm
    simp only [splitChar, hrec]
    simp [hcs]

/-- Splitting at the first separator occurrence. -/
theorem splitChar_append (sep : Char) (l1 l2 : List Char) (h : sep ∉ l1) :
    splitChar sep (l1 ++ sep :: l2) = l1 :: splitChar sep l2 := by
  induction l1 with
  | nil =>
    simp only [List.nil_append, splitChar]
    cases h2 : splitChar sep l2 with
    | nil => exact absurd h2 (splitChar_ne_nil sep l2)
    | cons a t => simp
  | cons c cs ih =>
    simp only [List.mem_cons] at h
    push_neg at h
    have hrec := ih h.2
    have hcs : ¬ c = sep := fun he => h.1 he.symm
    simp only [List.cons_append, splitChar, List.append_eq]
    rw [hrec]
    simp [hcs]

/-- Skipping a head position where the pattern does not match. -/
theorem occursL_cons_of_not_startsWith (p : List Char) (c : Char) (l : List Char)
    (h : startsWithL p (c :: l) = false) :
    occursL p (c :: l) = occursL p l := by
  simp [occursL, h]

/-- A pattern with a mismatched head skips any character. -/
theorem occursL_skip_char (a : Char) (p : List Char) (c : Char) (l : List Char)
    (h : a ≠ c) : occursL (a :: p) (c :: l) = occursL (a :: p) l := by
  apply occursL_cons_of_not_startsWith
  simp [startsWithL, h]

/-- A pattern whose head is not a word character skips a word region. -/
theorem occursL_skip_word (a : Char) (p : List Char) (w l : List Char)
    (ha : isWordChar a = false) (hw : wordOnly w) :
    occursL (a :: p) (w ++ l) = occursL (a :: p) l := by
  induction w with
  | nil => rfl
  | cons c cs ih =>
    have hc : isWordChar c = true := hw c (List.mem_cons_self _ _)
    have hac : a ≠ c := fun he => by rw [he, hc] at ha; cases ha
    have hcs : wordOnly cs := fun x hx => hw x (List.mem_cons_of_mem _ hx)
    rw [List.cons_append, occursL_skip_char a p c _ hac, ih hcs]

/-- A single-character pattern does not occur in a list avoiding it. -/
theorem occursL_single_of_not_mem (c0 : Char) (l : List Char) (h : c0 ∉ l) :
    occursL [c0] l = false := by
  induction l with
  | nil => rfl
  | cons c cs ih =>
    simp only [List.mem_cons] at h
    push_neg at h
    rw [occursL_skip_char c0 [] c cs h.1]
    exact ih h.2

/-- A two-character pattern skips any position whose successor mismatches
its second character. -/
theorem occursL_pair_skip (a b c1 c2 : Char) (l : List Char) (h : b ≠ c2) :
    occursL [a, b] (c1 :: c2 :: l) = occursL [a, b] (c2 :: l) := by
  apply occursL_cons_of_not_startsWith
  simp [startsWithL, h]

/-- A pattern headed by a character that appears only as the final element
cannot occur when it needs at least one more character. -/
theorem occursL_head_only_last (a : Char) (p1 : Char) (p : List Char)
    (l : List Char) (h : ∀ c ∈ l, c ≠ a) :
    occursL (a :: p1 :: p) (l ++ [a]) = false := by
  induction l with
  | nil => simp [occursL, startsWithL]
  | cons c cs ih =>
    rw [List.cons_append,
      occursL_skip_char a (p1 :: p) c _ (fun he => h c (List.mem_cons_self _ _) he.symm)]
    exact ih (fun x hx => h x (List.mem_cons_of_mem _ hx))

/-- `str.replace` is the identity when the pattern does not occur. -/
theorem replaceList_of_not_occurs (pat repl l : List Char)
    (h : occursL pat l = false) : replaceList pat repl l = l := by
  induction l with
  | nil => simp [replaceList]
  | cons c cs ih =>
    simp only [occursL, Bool.or_eq_false_iff] at h
    rw [replaceList]
    rw [if_neg (by simp [h.1])]
    rw [ih h.2]

/-- Dropping the trailing semicolon. -/
theorem rstripSemi_append (l : List Char) (c : Char) (hc : ¬ c = ';') :
    rstripSemi (l ++ [c, ';']) = l ++ [c] := by
  unfold rstripSemi
  have h1 : (l ++ [c, ';']).reverse = ';' :: c :: l.reverse := by
    simp
  rw [h1]
  rw [List.dropWhile_cons]
  simp only [decide_True, decide_eq_true_eq, if_pos rfl]
  rw [List.dropWhile_cons]
  simp [hc]

/-- A word region survives the whitespace filter. -/
theorem filter_word (w : List Char) (hw : wordOnly w) :
    w.filter (fun c => !isSpaceChar c) = w := by
  induction w with
  | nil => rfl
  | cons c cs ih =>
    have hc : isWordChar c = true := hw c (List.mem_cons_self _ _)
    have hcs : wordOnly cs := fun x hx => hw x (List.mem_cons_of_mem _ hx)
    have hsp : isSpaceChar c = false := by
      by_contra hcon
      have : isSpaceChar c = true := by
        cases h2 : isSpaceChar c
        · exact absurd h2 hcon
        · rfl
      simp only [isSpaceChar, Bool.or_eq_true, decide_eq_true_eq] at this
      rcases this with ((((h | h) | h) | h) | h) | h <;> rw [h] at hc <;> cases hc
    simp [List.filter_cons, hsp, ih hcs]

end Flojoy

namespace Flojoy

theorem word_ne {c x : Char} (hc : isWordChar c = true)
    (hx : isWordChar x = false) : c ≠ x := by
  intro he
  rw [he, hx] at hc
  cases hc

/-- Characters of the rendered members: word characters and the three
separators. -/
theorem renderMembers_chars (pairs : List (List Char × List Char))
    (hp : ∀ kv ∈ pairs, wordOnly kv.1 ∧ wordOnly kv.2) :
    ∀ c ∈ renderMembers pairs,
      isWordChar c = true ∨ c = ':' ∨ c = ' ' ∨ c = ',' := by
  induction pairs with
  | nil => simp [renderMembers]
  | cons kv rest ih =>
    obtain ⟨hk, hv⟩ := hp kv (List.mem_cons_self _ _)
    have hrest : ∀ kv2 ∈ rest, wordOnly kv2.1 ∧ wordOnly kv2.2 :=
      fun kv2 h2 => hp kv2 (List.mem_cons_of_mem _ h2)
    intro c hc
    cases rest with
    | nil =>
      simp only [renderMembers, renderPair, List.mem_append, List.mem_cons] at hc
      rcases hc with h | h | h
      · exact Or.inl (hk c h)
      · exact Or.inr (Or.inl h)
      · rcases h with h | h
        · exact Or.inr (Or.inr (Or.inl h))
        · exact Or.inl (hv c h)
    | cons r rs =>
      simp only [renderMembers, renderPair, List.mem_append, List.mem_cons] at hc
      rcases hc with (h | h | h | h) | h | h
      · exact Or.inl (hk c h)
      · exact Or.inr (Or.inl h)
      · exact Or.inr (Or.inr (Or.inl h))
      · exact Or.inl (hv c h)
      · exact Or.inr (Or.inr (Or.inr h))
      · rcases h with h | h
        · exact Or.inr (Or.inr (Or.inl h))
        · exact ih hrest c h

/-- The pattern comma-brace never occurs in the rendered members followed
by a tail avoiding it: every comma is followed by a space. -/
theorem occursL_commaBrace (pairs : List (List Char × List Char))
    (hp : ∀ kv ∈ pairs, wordOnly kv.1 ∧ wordOnly kv.2) :
    ∀ tail, occursL [',', rbrace] tail = false →
    occursL [',', rbrace] (renderMembers pairs ++ tail) = false := by
  induction pairs with
  | nil =>
    intro tail h0
    simpa [renderMembers] using h0
  | cons kv rest ih =>
    obtain ⟨hk, hv⟩ := hp kv (List.mem_cons_self _ _)
    have hrest : ∀ kv2 ∈ rest, wordOnly kv2.1 ∧ wordOnly kv2.2 :=
      fun kv2 h2 => hp kv2 (List.mem_cons_of_mem _ h2)
    intro tail h0
    cases rest with
    | nil =>
      have hsh : renderMembers [kv] ++ tail
          = kv.1 ++ ':' :: ' ' :: (kv.2 ++ tail) := by
        simp [renderMembers, renderPair]
      rw [hsh, occursL_skip_word ',' [rbrace] kv.1 _ (by decide) hk,
        occursL_skip_char ',' [rbrace] ':' _ (by decide),
        occursL_skip_char ',' [rbrace] ' ' _ (by decide),
        occursL_skip_word ',' [rbrace] kv.2 _ (by decide) hv]
      exact h0
    | cons r rs =>
      have hsh : renderMembers (kv :: r :: rs) ++ tail
          = kv.1 ++ ':' :: ' ' :: (kv.2 ++ ',' :: ' ' :: (renderMembers (r :: rs) ++ tail)) := by
        simp [renderMembers, renderPair]
      rw [hsh, occursL_skip_word ',' [rbrace] kv.1 _ (by decide) hk,
        occursL_skip_char ',' [rbrace] ':' _ (by decide),
        occursL_skip_char ',' [rbrace] ' ' _ (by decide),
        occursL_skip_word ',' [rbrace] kv.2 _ (by decide) hv,
        occursL_pair_skip ',' rbrace ',' ' ' _ (by decide),
        occursL_skip_char ',' [rbrace] ' ' _ (by decide)]
      exact ih hrest tail h0

/-- The whitespace filter turns the rendered members into the stripped
members. -/
theorem filter_members (pairs : List (List Char × List Char))
    (hp : ∀ kv ∈ pairs, wordOnly kv.1 ∧ wordOnly kv.2) :
    (renderMembers pairs).filter (fun c => !isSpaceChar c)
      = strippedMembers pairs := by
  induction pairs with
  | nil => rfl
  | cons kv rest ih =>
    obtain ⟨hk, hv⟩ := hp kv (List.mem_cons_self _ _)
    have hrest : ∀ kv2 ∈ rest, wordOnly kv2.1 ∧ wordOnly kv2.2 :=
      fun kv2 h2 => hp kv2 (List.mem_cons_of_mem _ h2)
    cases rest with
    | nil =>
      simp only [renderMembers, renderPair, strippedMembers, List.filter_append,
        List.filter_cons]
      rw [filter_word kv.1 hk, filter_word kv.2 hv]
      simp [isSpaceChar]
    | cons r rs =>
      simp only [renderMembers, renderPair, strippedMembers, List.filter_append,
        List.filter_cons]
      rw [filter_word kv.1 hk, filter_word kv.2 hv, ih hrest]
      simp [isSpaceChar]

end Flojoy

namespace Flojoy

theorem takeWhile_word_append (w l : List Char) (hw : wordOnly w) :
    List.takeWhile isWordChar (w ++ l) = w ++ List.takeWhile isWordChar l := by
  induction w with
  | nil => rfl
  | cons c cs ih =>
    have hc : isWordChar c = true := hw c (List.mem_cons_self _ _)
    have hcs : wordOnly cs := fun x hx => hw x (List.mem_cons_of_mem _ hx)
    simp [List.takeWhile_cons, hc, ih hcs]

theorem dropWhile_word_append (w l : List Char) (hw : wordOnly w) :
    List.dropWhile isWordChar (w ++ l) = List.dropWhile isWordChar l := by
  induction w with
  | nil => rfl
  | cons c cs ih =>
    have hc : isWordChar c = true := hw c (List.mem_cons_self _ _)
    have hcs : wordOnly cs := fun x hx => hw x (List.mem_cons_of_mem _ hx)
    simp [List.dropWhile_cons, hc, ih hcs]

theorem takeWhile_head_nonword (l : List Char)
    (hl : ∀ c, l.head? = some c → isWordChar c = false) :
    List.takeWhile isWordChar l = [] := by
  cases l with
  | nil => rfl
  | cons c cs => simp [List.takeWhile_cons, hl c rfl]

theorem dropWhile_head_nonword (l : List Char)
    (hl : ∀ c, l.head? = some c → isWordChar c = false) :
    List.dropWhile isWordChar l = l := by
  cases l with
  | nil => rfl
  | cons c cs => simp [List.dropWhile_cons, hl c rfl]

theorem quoteWords_nil : quoteWords [] = [] := by
  rw [quoteWords]

/-- The quoting sub of a non-word character leaves it in place. -/
theorem quoteWords_nonword (c : Char) (l : List Char) (h : isWordChar c = false) :
    quoteWords (c :: l) = c :: quoteWords l := by
  rw [quoteWords]
  simp [h]

/-- The quoting sub wraps a maximal word run in double quotes. -/
theorem quoteWords_word (w l : List Char) (hw : wordOnly w) (hne : w ≠ [])
    (hl : ∀ c, l.head? = some c → isWordChar c = false) :
    quoteWords (w ++ l) = quoteC :: w ++ quoteC :: quoteWords l := by
  cases w with
  | nil => exact absurd rfl hne
  | cons c cs =>
    have hc : isWordChar c = true := hw c (List.mem_cons_self _ _)
    have hcs : wordOnly cs := fun x hx => hw x (List.mem_cons_of_mem _ hx)
    rw [List.cons_append, quoteWords]
    rw [if_pos hc]
    rw [← List.cons_append, takeWhile_word_append (c :: cs) l hw,
      dropWhile_word_append (c :: cs) l hw,
      takeWhile_head_nonword l hl, dropWhile_head_nonword l hl]
    simp

/-- The quoting stage on the stripped members. -/
theorem quoteWords_members (pairs : List (List Char × List Char))
    (hp : ∀ kv ∈ pairs, wordOnly kv.1 ∧ kv.1 ≠ [] ∧ wordOnly kv.2 ∧ kv.2 ≠ []) :
    quoteWords (strippedMembers pairs ++ [rbrace])
      = quotedMembers pairs ++ [rbrace] := by
  induction pairs with
  | nil =>
    simp only [strippedMembers, quotedMembers, List.nil_append]
    rw [quoteWords_nonword rbrace [] (by decide), quoteWords_nil]
  | cons kv rest ih =>
    obtain ⟨hk, hkne, hv, hvne⟩ := hp kv (List.mem_cons_self _ _)
    have hrest : ∀ kv2 ∈ rest, wordOnly kv2.1 ∧ kv2.1 ≠ [] ∧ wordOnly kv2.2 ∧ kv2.2 ≠ [] :=
      fun kv2 h2 => hp kv2 (List.mem_cons_of_mem _ h2)
    cases rest with
    | nil =>
      have hsh : strippedMembers [kv] ++ [rbrace]
          = kv.1 ++ ':' :: (kv.2 ++ [rbrace]) := by
        simp [strippedMembers]
      rw [hsh, quoteWords_word kv.1 _ hk hkne (by intro c hc; cases hc; decide),
        quoteWords_nonword ':' _ (by decide),
        quoteWords_word kv.2 _ hv hvne (by intro c hc; cases hc; decide),
        quoteWords_nonword rbrace [] (by decide), quoteWords_nil]
      simp only [quotedMembers, quotedPair]
      simp
    | cons r rs =>
      have hsh : strippedMembers (kv :: r :: rs) ++ [rbrace]
          = kv.1 ++ ':' :: (kv.2 ++ ',' :: (strippedMembers (r :: rs) ++ [rbrace])) := by
        simp [strippedMembers]
      have hhead : ∀ c, (strippedMembers (r :: rs) ++ [rbrace]).head? = some c →
          isWordChar c = true ∨ c = ':' ∨ c = ',' ∨ c = rbrace := by
        intro c hc
        cases rs with
        | nil =>
          obtain ⟨hr1, hr1ne, -, -⟩ := hrest r (List.mem_cons_self _ _)
          cases hr : r.1 with
          | nil => exact absurd hr hr1ne
          | cons a as =>
            simp [strippedMembers, hr] at hc
            exact Or.inl (by
              have := hr1 a (by rw [hr]; exact List.mem_cons_self _ _)
              rw [← hc]
              exact this)
        | cons r2 rs2 =>
          obtain ⟨hr1, hr1ne, -, -⟩ := hrest r (List.mem_cons_self _ _)
          cases hr : r.1 with
          | nil => exact absurd hr hr1ne
          | cons a as =>
            simp [strippedMembers, hr] at hc
            exact Or.inl (by
              have := hr1 a (by rw [hr]; exact List.mem_cons_self _ _)
              rw [← hc]
              exact this)
      rw [hsh, quoteWords_word kv.1 _ hk hkne (by intro c hc; cases hc; decide),
        quoteWords_nonword ':' _ (by decide),
        quoteWords_word kv.2 _ hv hvne (by intro c hc; cases hc; decide),
        quoteWords_nonword ',' _ (by decide), ih hrest]
      simp only [quotedMembers, quotedPair]
      simp

end Flojoy

namespace Flojoy

/-- Two adjacent double quotes never appear across one quoted member. -/
theorem occursL_qq_pair (k v tail : List Char) (hk : wordOnly k) (hkne : k ≠ [])
    (hv : wordOnly v) (hvne : v ≠ [])
    (htail : occursL [quoteC, quoteC] tail = false)
    (hhead : ∀ c, tail.head? = some c → ¬ c = quoteC) :
    occursL [quoteC, quoteC] (quotedPair (k, v) ++ tail) = false := by
  have hsh : quotedPair (k, v) ++ tail
      = quoteC :: (k ++ quoteC :: ':' :: (quoteC :: (v ++ quoteC :: tail))) := by
    simp [quotedPair]
  rw [hsh]
  cases k with
  | nil => exact absurd rfl hkne
  | cons kc ks =>
    have hkc : isWordChar kc = true := hk kc (List.mem_cons_self _ _)
    rw [List.cons_append,
      occursL_pair_skip quoteC quoteC quoteC kc _ (word_ne hkc (by decide)).symm,
      ← List.cons_append,
      occursL_skip_word quoteC [quoteC] (kc :: ks) _ (by decide) hk,
      occursL_pair_skip quoteC quoteC quoteC ':' _ (by decide),
      occursL_skip_char quoteC [quoteC] ':' _ (by decide)]
    cases v with
    | nil => exact absurd rfl hvne
    | cons vc vs =>
      have hvc : isWordChar vc = true := hv vc (List.mem_cons_self _ _)
      rw [List.cons_append,
        occursL_pair_skip quoteC quoteC quoteC vc _ (word_ne hvc (by decide)).symm,
        ← List.cons_append,
        occursL_skip_word quoteC [quoteC] (vc :: vs) _ (by decide) hv]
      cases tail with
      | nil => simp [occursL, startsWithL]
      | cons t ts =>
        rw [occursL_pair_skip quoteC quoteC quoteC t _
          (fun he => hhead t rfl he.symm)]
        exact htail

/-- Two adjacent double quotes never appear in the quoted members. -/
theorem occursL_qq_members (pairs : List (List Char × List Char))
    (hp : ∀ kv ∈ pairs, wordOnly kv.1 ∧ kv.1 ≠ [] ∧ wordOnly kv.2 ∧ kv.2 ≠ []) :
    occursL [quoteC, quoteC] (quotedMembers pairs ++ [rbrace]) = false := by
  induction pairs with
  | nil => decide
  | cons kv rest ih =>
    obtain ⟨hk, hkne, hv, hvne⟩ := hp kv (List.mem_cons_self _ _)
    have hrest : ∀ kv2 ∈ rest, wordOnly kv2.1 ∧ kv2.1 ≠ [] ∧ wordOnly kv2.2 ∧ kv2.2 ≠ [] :=
      fun kv2 h2 => hp kv2 (List.mem_cons_of_mem _ h2)
    cases rest with
    | nil =>
      have hkv : kv = (kv.1, kv.2) := rfl
      rw [show quotedMembers [kv] ++ [rbrace] = quotedPair (kv.1, kv.2) ++ [rbrace] by
        simp [quotedMembers]]
      exact occursL_qq_pair kv.1 kv.2 [rbrace] hk hkne hv hvne (by decide) (by decide)
    | cons r rs =>
      have hsh : quotedMembers (kv :: r :: rs) ++ [rbrace]
          = quotedPair (kv.1, kv.2) ++ (',' :: (quotedMembers (r :: rs) ++ [rbrace])) := by
        simp [quotedMembers]
      rw [hsh]
      refine occursL_qq_pair kv.1 kv.2 _ hk hkne hv hvne ?_ (by simp; decide)
      rw [occursL_skip_char quoteC [quoteC] ',' _ (by decide)]
      exact ih hrest

/-- Characters of the quoted members: quotes, word characters, and the
two separators. -/
theorem quotedMembers_chars (pairs : List (List Char × List Char))
    (hp : ∀ kv ∈ pairs, wordOnly kv.1 ∧ wordOnly kv.2) :
    ∀ c ∈ quotedMembers pairs,
      c = quoteC ∨ isWordChar c = true ∨ c = ':' ∨ c = ',' := by
  induction pairs with
  | nil => simp [quotedMembers]
  | cons kv rest ih =>
    obtain ⟨hk, hv⟩ := hp kv (List.mem_cons_self _ _)
    have hrest : ∀ kv2 ∈ rest, wordOnly kv2.1 ∧ wordOnly kv2.2 :=
      fun kv2 h2 => hp kv2 (List.mem_cons_of_mem _ h2)
    intro c hc
    cases rest with
    | nil =>
      simp only [quotedMembers, quotedPair, List.mem_append, List.mem_cons,
        List.mem_singleton] at hc
      casesm* _ ∨ _ <;>
        first
        | exact Or.inl (by assumption)
        | exact Or.inr (Or.inl (hk c (by assumption)))
        | exact Or.inr (Or.inl (hv c (by assumption)))
        | exact Or.inr (Or.inr (Or.inl (by assumption)))
        | exact Or.inr (Or.inr (Or.inr (by assumption)))
        | exact absurd (by assumption) (List.not_mem_nil c)
    | cons r rs =>
      simp only [quotedMembers, quotedPair, List.mem_append, List.mem_cons,
        List.mem_singleton] at hc
      casesm* _ ∨ _ <;>
        first
        | exact Or.inl (by assumption)
        | exact Or.inr (Or.inl (hk c (by assumption)))
        | exact Or.inr (Or.inl (hv c (by assumption)))
        | exact Or.inr (Or.inr (Or.inl (by assumption)))
        | exact Or.inr (Or.inr (Or.inr (by assumption)))
        | exact ih hrest c (by assumption)
        | exact absurd (by assumption) (List.not_mem_nil c)

end Flojoy

namespace Flojoy

theorem word_not_quote (w : List Char) (hw : wordOnly w) : quoteC ∉ w := by
  intro habs
  have := hw quoteC habs
  exact absurd this (by decide)

theorem parseStrBody_append (s rest : List Char) (h : quoteC ∉ s) :
    parseStrBody (s ++ quoteC :: rest) = some (s, rest) := by
  induction s with
  | nil => simp [parseStrBody]
  | cons c cs ih =>
    simp only [List.mem_cons] at h
    push_neg at h
    have hq : ¬ c = quoteC := fun he => h.1 he.symm
    simp [parseStrBody, hq, ih h.2]

theorem quotedMembers_length (pairs : List (List Char × List Char)) :
    pairs.length ≤ (quotedMembers pairs).length := by
  induction pairs with
  | nil => simp [quotedMembers]
  | cons kv rest ih =>
    cases rest with
    | nil => simp [quotedMembers, quotedPair]
    | cons r rs =>
      simp only [quotedMembers, quotedPair, List.length_cons, List.length_append] at ih ⊢
      omega

/-- The member parsing loop consumes the quoted members and builds the
dict, last duplicate winning. -/
theorem parseMembers_members (pairs : List (List Char × List Char)) :
    ∀ fuel acc,
    (∀ kv ∈ pairs, wordOnly kv.1 ∧ kv.1 ≠ [] ∧ wordOnly kv.2 ∧ kv.2 ≠ []) →
    pairs ≠ [] → pairs.length + 1 ≤ fuel →
    parseMembers fuel (quotedMembers pairs ++ [rbrace]) acc
      = some (.obj (pairs.foldl
          (fun a kv => pyUpsert a (String.mk kv.1) (.str (String.mk kv.2))) acc), []) := by
  induction pairs with
  | nil => intro fuel acc _ hne _; exact absurd rfl hne
  | cons kv rest ih =>
    intro fuel acc hp _ hfuel
    obtain ⟨hk, hkne, hv, hvne⟩ := hp kv (List.mem_cons_self _ _)
    have hrest : ∀ kv2 ∈ rest, wordOnly kv2.1 ∧ kv2.1 ≠ [] ∧ wordOnly kv2.2 ∧ kv2.2 ≠ [] :=
      fun kv2 h2 => hp kv2 (List.mem_cons_of_mem _ h2)
    match fuel, hfuel with
    | f + 1, hfuel =>
    have hflen : rest.length + 1 ≤ f := by
      simp only [List.length_cons] at hfuel
      omega
    match f, hflen with
    | f2 + 1, hflen =>
    cases rest with
    | nil =>
      have hsh : quotedMembers [kv] ++ [rbrace]
          = quoteC :: (kv.1 ++ quoteC :: ':'
              :: (quoteC :: (kv.2 ++ quoteC :: [rbrace]))) := by
        simp [quotedMembers, quotedPair]
      rw [hsh]
      simp only [parseMembers, if_pos rfl,
        parseStrBody_append kv.1 _ (word_not_quote kv.1 hk)]
      simp only [parseValue, if_pos rfl,
        parseStrBody_append kv.2 _ (word_not_quote kv.2 hv)]
      have hne : ¬ rbrace = ',' := by decide
      simp [hne, List.foldl]
    | cons r rs =>
      have hsh : quotedMembers (kv :: r :: rs) ++ [rbrace]
          = quoteC :: (kv.1 ++ quoteC :: ':'
              :: (quoteC :: (kv.2 ++ quoteC
                :: (',' :: (quotedMembers (r :: rs) ++ [rbrace]))))) := by
        simp [quotedMembers, quotedPair]
      rw [hsh]
      simp only [parseMembers, if_pos rfl,
        parseStrBody_append kv.1 _ (word_not_quote kv.1 hk)]
      simp only [parseValue, if_pos rfl,
        parseStrBody_append kv.2 _ (word_not_quote kv.2 hv)]
      simp only [eq_self_iff_true, ite_true, if_true]
      rw [ih (f2 + 1) (pyUpsert acc (String.mk kv.1) (.str (String.mk kv.2)))
        hrest (by simp) (by simp only [List.length_cons] at hflen ⊢; omega)]
      simp [List.foldl]

/-- Opening step of the object parse: a brace followed by a quote hands
the input to the member loop. -/
theorem parseValue_open (X t : List Char) (ht : X = quoteC :: t) :
    parseValue ((lbrace :: X).length + 1) (lbrace :: X)
      = parseMembers (lbrace :: X).length X [] := by
  simp only [parseValue]
  rw [ht]
  simp only [(by decide : (quoteC = rbrace) = False), if_false]
  rw [← ht]
  simp only [(by decide : (lbrace = quoteC) = False), if_false,
    eq_self_iff_true, ite_true, if_true]

/-- `json.loads` on the fully quoted flat object. -/
theorem json_loads_members (pairs : List (List Char × List Char))
    (hp : ∀ kv ∈ pairs, wordOnly kv.1 ∧ kv.1 ≠ [] ∧ wordOnly kv.2 ∧ kv.2 ≠ []) :
    json_loads (lbrace :: quotedMembers pairs ++ [rbrace])
      = .ok (.obj (buildObj pairs)) := by
  cases pairs with
  | nil => rfl
  | cons kv rest =>
    have hlen : (kv :: rest).length + 1
        ≤ (lbrace :: (quotedMembers (kv :: rest) ++ [rbrace])).length := by
      have h1 := quotedMembers_length (kv :: rest)
      simp only [List.length_cons, List.length_append, List.length_nil] at h1 ⊢
      omega
    have hex : ∃ t, quotedMembers (kv :: rest) ++ [rbrace] = quoteC :: t := by
      cases rest with
      | nil =>
        exact ⟨(kv.1 ++ quoteC :: ':' :: quoteC :: kv.2 ++ [quoteC]) ++ [rbrace],
          by simp [quotedMembers, quotedPair]⟩
      | cons r rs =>
        exact ⟨((kv.1 ++ quoteC :: ':' :: quoteC :: kv.2 ++ [quoteC])
            ++ ',' :: quotedMembers (r :: rs)) ++ [rbrace],
          by simp [quotedMembers, quotedPair]⟩
    obtain ⟨t, ht⟩ := hex
    unfold json_loads
    simp only [List.cons_append]
    rw [parseValue_open (quotedMembers (kv :: rest) ++ [rbrace]) t ht]
    rw [parseMembers_members (kv :: rest) _ [] hp (by simp) (by simpa using hlen)]
    rfl

end Flojoy

namespace Flojoy

/-- Every value in the dict built by the parse is a string. -/
theorem buildObj_str (pairs : List (List Char × List Char)) :
    ∀ acc : List (String × Json), (∀ kv ∈ acc, ∃ s, kv.2 = Json.str s) →
    ∀ kv ∈ pairs.foldl
      (fun a kv => pyUpsert a (String.mk kv.1) (.str (String.mk kv.2))) acc,
      ∃ s, kv.2 = Json.str s := by
  induction pairs with
  | nil => intro acc hacc kv hkv; exact hacc kv hkv
  | cons p rest ih =>
    intro acc hacc kv hkv
    simp only [List.foldl_cons] at hkv
    refine ih _ ?_ kv hkv
    intro kv2 hkv2
    rcases mem_pyUpsert _ _ _ _ hkv2 with h | h
    · exact ⟨String.mk p.2, by rw [h]⟩
    · exact hacc kv2 h

end Flojoy

open Flojoy in
/-- Claim C10: for every input of the claimed form, a JS object definition
with word-character keys and values, `js_to_json` returns a mapping whose
keys and values are all strings — numeric literals such as a default of 1
come back as the string form, never as a number. -/
theorem claim_C10 (name : List Char) (pairs : List (List Char × List Char))
    (hname : wordOnly name)
    (hp : ∀ kv ∈ pairs, wordOnly kv.1 ∧ kv.1 ≠ [] ∧ wordOnly kv.2 ∧ kv.2 ≠ []) :
    ∃ m, js_to_json (String.mk (renderInput name pairs)) = .ok (.obj m) ∧
      m = buildObj pairs ∧
      ∀ kv ∈ m, ∃ s, kv.2 = Json.str s := by
  have hpw : ∀ kv ∈ pairs, wordOnly kv.1 ∧ wordOnly kv.2 :=
    fun kv h => ⟨(hp kv h).1, (hp kv h).2.2.1⟩
  have hmem_chars := renderMembers_chars pairs hpw
  have hmem2 : ∀ c ∈ renderMembers pairs,
      isWordChar c = true ∨ c ∈ ([' ', ':', ',', lbrace, rbrace, ';'] : List Char) := by
    intro c h
    rcases hmem_chars c h with h2 | h2 | h2 | h2
    · exact Or.inl h2
    · subst h2; right; decide
    · subst h2; right; decide
    · subst h2; right; decide
  have hrest2 : ∀ c ∈ (' ' :: lbrace :: (renderMembers pairs ++ [rbrace, ';'])),
      isWordChar c = true ∨ c ∈ [' ', ':', ',', lbrace, rbrace, ';'] := by
    intro c hc
    rcases List.mem_cons.mp hc with h | hc2
    · subst h; right; decide
    rcases List.mem_cons.mp hc2 with h | hc3
    · subst h; right; decide
    rcases List.mem_append.mp hc3 with h | h
    · exact hmem2 c h
    rcases List.mem_cons.mp h with h2 | h2
    · subst h2; right; decide
    rcases List.mem_cons.mp h2 with h3 | h3
    · subst h3; right; decide
    exact absurd h3 (List.not_mem_nil c)
  have hnotin : ∀ x : Char, isWordChar x = false →
      x ∉ ([' ', ':', ',', lbrace, rbrace, ';'] : List Char) →
      x ∉ (' ' :: lbrace :: (renderMembers pairs ++ [rbrace, ';'])) := by
    intro x hx1 hx2 habs
    rcases hrest2 x habs with h | h
    · rw [h] at hx1; cases hx1
    · exact hx2 h
  have hform : renderInput name pairs
      = (name ++ [' ']) ++ '=' :: (' ' :: lbrace :: (renderMembers pairs ++ [rbrace, ';'])) := by
    simp [renderInput]
  have h_split : (splitChar '=' (renderInput name pairs)).get? 1
      = some (' ' :: lbrace :: (renderMembers pairs ++ [rbrace, ';'])) := by
    rw [hform, splitChar_append '=' _ _ ?hn,
      splitChar_of_not_mem '=' _ (hnotin '=' (by decide) (by decide))]
    · rfl
    case hn =>
      intro habs
      rcases List.mem_append.mp habs with h | h
      · have := hname '=' h
        exact absurd this (by decide)
      · simp at h
  have h_nl : replaceList ['\n'] []
      (' ' :: lbrace :: (renderMembers pairs ++ [rbrace, ';']))
      = ' ' :: lbrace :: (renderMembers pairs ++ [rbrace, ';']) :=
    replaceList_of_not_occurs _ _ _
      (occursL_single_of_not_mem '\n' _ (hnotin '\n' (by decide) (by decide)))
  have h_ap : replaceList [aposC] []
      (' ' :: lbrace :: (renderMembers pairs ++ [rbrace, ';']))
      = ' ' :: lbrace :: (renderMembers pairs ++ [rbrace, ';']) :=
    replaceList_of_not_occurs _ _ _
      (occursL_single_of_not_mem aposC _ (hnotin aposC (by decide) (by decide)))
  have h_cb : replaceList [',', rbrace] [rbrace]
      (' ' :: lbrace :: (renderMembers pairs ++ [rbrace, ';']))
      = ' ' :: lbrace :: (renderMembers pairs ++ [rbrace, ';']) := by
    refine replaceList_of_not_occurs _ _ _ ?_
    rw [occursL_skip_char ',' [rbrace] ' ' _ (by decide),
      occursL_skip_char ',' [rbrace] lbrace _ (by decide)]
    exact occursL_commaBrace pairs hpw [rbrace, ';'] (by decide)
  have h_rs : rstripSemi (' ' :: lbrace :: (renderMembers pairs ++ [rbrace, ';']))
      = ' ' :: lbrace :: (renderMembers pairs ++ [rbrace]) := by
    have hsh : (' ' :: lbrace :: (renderMembers pairs ++ [rbrace, ';']))
        = (' ' :: lbrace :: renderMembers pairs) ++ [rbrace, ';'] := by
      simp
    rw [hsh, rstripSemi_append _ rbrace (by decide)]
    simp
  have h_f : (' ' :: lbrace :: (renderMembers pairs ++ [rbrace])).filter
        (fun c => !isSpaceChar c)
      = lbrace :: (strippedMembers pairs ++ [rbrace]) := by
    rw [List.filter_cons_of_neg, List.filter_cons_of_pos, List.filter_append,
      filter_members pairs hpw]
    · rw [show ([rbrace] : List Char).filter (fun c => !isSpaceChar c) = [rbrace]
        from by decide]
    · decide
    · decide
  have h_q : quoteWords (lbrace :: (strippedMembers pairs ++ [rbrace]))
      = lbrace :: (quotedMembers pairs ++ [rbrace]) := by
    rw [quoteWords_nonword lbrace _ (by decide), quoteWords_members pairs hp]
  have h_qq : replaceList [quoteC, quoteC] [quoteC]
      (lbrace :: (quotedMembers pairs ++ [rbrace]))
      = lbrace :: (quotedMembers pairs ++ [rbrace]) := by
    refine replaceList_of_not_occurs _ _ _ ?_
    rw [occursL_skip_char quoteC [quoteC] lbrace _ (by decide)]
    exact occursL_qq_members pairs hp
  have h_bcb : replaceList [rbrace, ',', rbrace] [rbrace, rbrace]
      (lbrace :: (quotedMembers pairs ++ [rbrace]))
      = lbrace :: (quotedMembers pairs ++ [rbrace]) := by
    refine replaceList_of_not_occurs _ _ _ ?_
    have hsh : lbrace :: (quotedMembers pairs ++ [rbrace])
        = (lbrace :: quotedMembers pairs) ++ [rbrace] := by
      simp
    rw [hsh]
    refine occursL_head_only_last rbrace ',' [rbrace] _ ?_
    intro c hc
    rcases List.mem_cons.mp hc with h | h
    · subst h; decide
    · rcases quotedMembers_chars pairs hpw c h with h2 | h2 | h2 | h2
      · subst h2; decide
      · exact word_ne h2 (by decide)
      · subst h2; decide
      · subst h2; decide
  have hstart : js_to_json (String.mk (renderInput name pairs))
      = js_to_json_chars (renderInput name pairs) := rfl
  refine ⟨buildObj pairs, ?_, rfl, ?_⟩
  · rw [hstart]
    unfold js_to_json_chars
    rw [h_split]
    simp only [h_nl, h_ap, h_cb, h_rs, h_f, h_q, h_qq, h_bcb]
    have hfin := json_loads_members pairs hp
    simpa using hfin
  · exact buildObj_str pairs [] (by simp)

open Flojoy in
/-- Witness for claim C10 at the concrete input `a = <brace>b: 1<brace>;`:
the numeric default 1 comes back as the string form. -/
theorem claim_C10_witness :
    ∃ m, js_to_json (String.mk (renderInput "a".data [("b".data, "1".data)]))
        = .ok (.obj m) ∧
      pyLookup m "b" = some (Json.str "1") := by
  obtain ⟨m, hm, hbuild, hstr⟩ := claim_C10 "a".data [("b".data, "1".data)]
    (by unfold wordOnly; decide) (by unfold wordOnly; decide)
  refine ⟨m, hm, ?_⟩
  rw [hbuild]
  rfl
